import Mathlib

/-!
Verification of the NTFS filename sanitizer (`src/ntfs-sanitizer.py`).

Names are modelled as `List Char` (Python `str`).  The pure sanitizing
transform (lines 52-85 of the source), the collision-resolution loop
(lines 89-95), and the per-entry walker step (lines 37-132) are embedded
as executable Lean functions below; the bottom-up `os.walk(topdown=False)`
traversal is embedded as a tree walk producing the per-directory tuples
in child-before-parent order.

Python-specific behaviours are modelled faithfully:
* `str.strip(' .')` strips both leading and trailing spaces and dots;
* `os.path.splitext` splits at the last dot, except when every character
  before that dot is itself a dot (leading-dot names have no extension);
* slicing `base[:n]` clamps, and a negative `n` counts from the end;
* the regex `^(CON|PRN|AUX|NUL|COM[1-9]|LPT[1-9])(\..*)?$` with
  `re.IGNORECASE`: `$` also matches just before a single trailing
  newline, and `.` does not match a newline.  Case-insensitivity is
  modelled for ASCII letters (the device names are ASCII).
-/

/-- The nine forbidden punctuation characters of the regex character
class `[<>:"/\\|?*]` (control characters 0-31 are handled separately). -/
def forbiddenChars : List Char := ['<', '>', ':', '"', '/', '\\', '|', '?', '*']

/-- A character matched by the pattern `[<>:"/\\|?*\x00-\x1f]` (line 17). -/
def isForbidden (c : Char) : Bool := decide (c.toNat ≤ 31) || decide (c ∈ forbiddenChars)

/-- A character stripped by `name.strip(' .')` (lines 55 and 71). -/
def isStripChar (c : Char) : Bool := decide (c = ' ') || decide (c = '.')

/-- Python `s.strip(' .')`: remove leading and trailing spaces and dots. -/
def pyStrip (s : List Char) : List Char :=
  ((s.dropWhile isStripChar).reverse.dropWhile isStripChar).reverse

/-- `re.search(forbidden_chars, name)` is truthy (line 52). -/
def hasInvalid (s : List Char) : Bool := s.any isForbidden

/-- `name.strip(' .') != name` (line 55). -/
def hasTrailing (s : List Char) : Bool := decide (pyStrip s ≠ s)

/-- ASCII upper-casing, modelling `re.IGNORECASE` on the ASCII device names. -/
def toUpperAscii (c : Char) : Char :=
  if 97 ≤ c.toNat ∧ c.toNat ≤ 122 then Char.ofNat (c.toNat - 32) else c

/-- The three-letter reserved device names. -/
def dev3 : List (List Char) := [['C','O','N'], ['P','R','N'], ['A','U','X'], ['N','U','L']]

/-- The digit range of `COM[1-9]` / `LPT[1-9]`. -/
def isDigit19 (c : Char) : Bool := decide (49 ≤ c.toNat) && decide (c.toNat ≤ 57)

/-- Split off a reserved device-name head (the first group of the regex on
line 58), returning the remainder of the name after the device name. -/
def devSplit (s : List Char) : Option (List Char) :=
  if ((s.take 3).map toUpperAscii) ∈ dev3 then some (s.drop 3)
  else
    match s with
    | x :: y :: z :: d :: rest =>
      if (([x, y, z].map toUpperAscii = ['C','O','M'] ∨
           [x, y, z].map toUpperAscii = ['L','P','T']) ∧ isDigit19 d = true)
      then some rest else none
    | _ => none

/-- After the optional `\..*`, `$` may consume one trailing newline; `.` never
matches a newline.  `noNlButLast t` says `t` matches `.*` followed by `$`. -/
def noNlButLast (t : List Char) : Bool :=
  !(t.contains '\n') || (t.getLast? == some '\n' && !(t.dropLast.contains '\n'))

/-- The part of the name after the device name matches `(\..*)?$`. -/
def restOk (r : List Char) : Bool :=
  match r with
  | [] => true
  | x :: t => if x = '.' then noNlButLast t else (decide (x = '\n') && t.isEmpty)

/-- `re.match(reserved_pattern, name, re.IGNORECASE)` is truthy (line 59). -/
def isReserved (s : List Char) : Bool :=
  match devSplit s with
  | some r => restOk r
  | none => false

/-- Replacement of a single character by `re.sub(forbidden_chars, '_', ·)`. -/
def subChar (c : Char) : Char := if isForbidden c then '_' else c

/-- `re.sub(forbidden_chars, '_', s)` (line 67). -/
def subForbidden (s : List Char) : List Char := s.map subChar

/-- The fallback name `"unnamed"` (line 74). -/
def unnamedChars : List Char := ['u','n','n','a','m','e','d']

/-- A character that is not a dot (used by the `splitext` model). -/
def notDot (c : Char) : Bool := decide (c ≠ '.')

/-- `os.path.splitext` on a single path component: split at the last dot,
unless every character before that dot is also a dot (then there is no
extension).  Returns `(base, extension)` with `base ++ extension = s`. -/
def splitext (s : List Char) : List Char × List Char :=
  match (s.reverse).dropWhile notDot with
  | [] => (s, [])
  | _ :: rbase =>
    if rbase.any notDot then
      (rbase.reverse, '.' :: ((s.reverse).takeWhile notDot).reverse)
    else (s, [])

/-- Python slicing `s[:n]` for an `int` index `n`: clamps, and a negative
index counts from the end of the list. -/
def pyTake (s : List Char) (n : Int) : List Char :=
  if 0 ≤ n then s.take n.toNat else s.take (s.length - (-n).toNat)

/-- Lines 66-67 of the source: `new_name` after the invalid-character
substitution step. -/
def fixSub (name : List Char) : List Char :=
  if hasInvalid name then subForbidden name else name

/-- Lines 70-74 of the source: `new_name` after the trimming step with its
`unnamed` fallback. -/
def fixTrim (name : List Char) : List Char :=
  if hasTrailing name then
    (if pyStrip (fixSub name) = [] then unnamedChars else pyStrip (fixSub name))
  else fixSub name

/-- Lines 61-78 of the source: substitution, trimming (with the `unnamed`
fallback) and the reserved-name underscore, in that order. -/
def fixCore (name : List Char) : List Char :=
  if isReserved name then '_' :: fixTrim name else fixTrim name

/-- Lines 82-85 of the source: truncate the base so that base plus
extension fit within `maxLength` (Python slicing semantics). -/
def truncateName (m : List Char) (maxLength : Nat) : List Char :=
  pyTake (splitext m).1 ((maxLength : Int) - ((splitext m).2.length : Int)) ++ (splitext m).2

/-- Lines 61-85 of the source: the corrections applied to a name for which
at least one of the three detections fired.  `fixName` is the value of
`new_name` just before collision handling. -/
def fixName (name : List Char) (maxLength : Nat) : List Char :=
  if maxLength < (fixCore name).length then truncateName (fixCore name) maxLength
  else fixCore name

/-- The complete pure name transform of lines 52-85: the name is changed
only when one of the three detections fires on the original name. -/
def sanitizeName (name : List Char) (maxLength : Nat) : List Char :=
  if hasInvalid name || hasTrailing name || isReserved name then fixName name maxLength
  else name

/-- Decimal digit character, `str()` of a digit value (values above nine
cannot arise: the function is always applied to `n % 10` or `n < 10`). -/
def digitChar (k : Nat) : Char :=
  match k with
  | 0 => '0' | 1 => '1' | 2 => '2' | 3 => '3' | 4 => '4'
  | 5 => '5' | 6 => '6' | 7 => '7' | 8 => '8' | _ => '9'

/-- Fuel-driven decimal printer (the fuel is always sufficient). -/
def natCharsAux : Nat → Nat → List Char
  | 0, _ => []
  | fuel + 1, n => if n < 10 then [digitChar n] else natCharsAux fuel (n / 10) ++ [digitChar (n % 10)]

/-- Python `str(n)` / `f"{n}"` for a natural number. -/
def natChars (n : Nat) : List Char := natCharsAux (n + 1) n

/-- One execution of the `while os.path.exists(new_path)` loop of lines
92-95, driven by fuel.  `ext` is the extension of the *initial* candidate
(computed once, line 91); the base is recomputed from the *current*
candidate at every iteration (line 93). -/
def collideStep (fs : List (List Char)) : Nat → List Char → List Char → Nat → List Char
  | 0, m, _, _ => m
  | fuel + 1, m, ext, k =>
    if m ∈ fs then collideStep fs fuel ((splitext m).1 ++ '_' :: natChars k ++ ext) ext (k + 1)
    else m

/-- The longest name in the directory listing. -/
def maxNameLen (fs : List (List Char)) : Nat := fs.foldr (fun s acc => max s.length acc) 0

/-- Collision handling (lines 89-95): starting from the corrected
candidate, append `_<N>` (N = 1, 2, ...) until the name is not taken.
The fuel `maxNameLen fs + 1` always suffices because every iteration
grows the candidate by at least two characters. -/
def resolveCollision (fs : List (List Char)) (cand : List Char) : List Char :=
  collideStep fs (maxNameLen fs + 1) cand (splitext cand).2 1

/-- The reasons printed for a change (lines 113-118). -/
inductive Reason where
  | invalidChars
  | trailingSpaceDot
  | reservedName
deriving DecidableEq

/-- The reasons reported for one entry, in print order. -/
def reasonsOf (name : List Char) : List Reason :=
  (if hasInvalid name then [Reason.invalidChars] else []) ++
  (if hasTrailing name then [Reason.trailingSpaceDot] else []) ++
  (if isReserved name then [Reason.reservedName] else [])

/-- The mutable state of a run restricted to one directory: the directory's
current listing, the three counters of lines 27-29, the reported
change records, and the names reported in error messages. -/
structure RunState where
  fs : List (List Char)
  renamed : Nat
  skipped : Nat
  errors : Nat
  log : List (List Char × List Reason)
  errLog : List (List Char)
deriving DecidableEq

/-- Lines 38-132: processing of a single entry `name` of the directory
whose current listing is `st.fs`.  `script` is `os.path.basename(__file__)`
(line 40); `oracle old new = true` models `os.rename(old, new)` raising
`OSError` (line 123/127).  In a dry run the filesystem is never touched
and the oracle is never consulted. -/
def processEntry (dryRun : Bool) (oracle : List Char → List Char → Bool) (maxLength : Nat)
    (script : List Char) (st : RunState) (name : List Char) : RunState :=
  if name = script then st
  else if maxLength < name.length then { st with skipped := st.skipped + 1 }
  else if hasInvalid name || hasTrailing name || isReserved name then
    let final := resolveCollision st.fs (fixName name maxLength)
    if final = name then st
    else if dryRun then
      { st with renamed := st.renamed + 1, log := st.log ++ [(name, reasonsOf name)] }
    else if oracle name final then
      { st with errors := st.errors + 1,
                log := st.log ++ [(name, reasonsOf name)],
                errLog := st.errLog ++ [name] }
    else
      { st with fs := (st.fs.erase name) ++ [final],
                renamed := st.renamed + 1,
                log := st.log ++ [(name, reasonsOf name)] }
  else st

/-- Processing of all entries of one directory tuple, in listing order. -/
def runDir (dryRun : Bool) (oracle : List Char → List Char → Bool) (maxLength : Nat)
    (script : List Char) (st : RunState) (entries : List (List Char)) : RunState :=
  entries.foldl (processEntry dryRun oracle maxLength script) st

/-- A whole run over the sequence of directory tuples yielded by
`os.walk(topdown=False)`: each tuple is processed against its own live
listing (initially the tuple itself, as enumerated from the unmodified
tree — renames are confined to already-visited subtrees, so later tuples
are unaffected), and the counters and reports accumulate across tuples.
Returns the accumulated state (with empty `fs`) and the final listing of
each directory. -/
def runTree (dryRun : Bool) (oracle : List Char → List Char → Bool) (maxLength : Nat)
    (script : List Char) : List (List (List Char)) → RunState × List (List (List Char))
  | [] => (⟨[], 0, 0, 0, [], []⟩, [])
  | entries :: rest =>
    let st := runDir dryRun oracle maxLength script ⟨entries, 0, 0, 0, [], []⟩ entries
    let r := runTree dryRun oracle maxLength script rest
    (⟨[], st.renamed + r.1.renamed, st.skipped + r.1.skipped, st.errors + r.1.errors,
      st.log ++ r.1.log, st.errLog ++ r.1.errLog⟩, st.fs :: r.2)

/-- A directory tree: a directory name, its subdirectories, and its files. -/
inductive FsTree where
  | node : List Char → List FsTree → List (List Char) → FsTree

/-- The name of the root directory of a tree. -/
def FsTree.name : FsTree → List Char
  | .node n _ _ => n

/-- The subdirectories of the root of a tree. -/
def FsTree.subs : FsTree → List FsTree
  | .node _ s _ => s

/-- The files of the root of a tree. -/
def FsTree.files : FsTree → List (List Char)
  | .node _ _ f => f

/-- The sequence of `(root-path, entry-name)` pairs processed by the
`for root, dirs, files in os.walk(root_dir, topdown=False): for name in
dirs + files:` loop (lines 37-38), for a tree walked at a given path.
`topdown=False` yields every subdirectory's tuple before its parent's
tuple, and each tuple contributes its subdirectory names followed by its
file names, all with `root` as the directory path.  Paths are built from
the original tree, matching the walk's enumeration of the unmodified
tree (renames only ever touch already-yielded subtrees). -/
def walkEntries : FsTree → List (List Char) → List (List (List Char) × List Char)
  | .node n subs files, path =>
    ((subs.attach.map (fun s => walkEntries s.1 (path ++ [n]))).flatten) ++
    ((subs.map FsTree.name) ++ files).map (fun e => (path ++ [n], e))
decreasing_by
  have h1 : sizeOf s.1 < sizeOf subs := List.sizeOf_lt_of_mem s.2
  simp only [FsTree.node.sizeOf_spec]
  omega

/-- `NodeAt t p d q`: walking `t` with path argument `p` reaches the
directory node `d` with path argument `q`. -/
inductive NodeAt : FsTree → List (List Char) → FsTree → List (List Char) → Prop where
  | refl (t : FsTree) (p : List (List Char)) : NodeAt t p t p
  | step (t : FsTree) (p : List (List Char)) (s d : FsTree) (q : List (List Char)) :
      s ∈ t.subs → NodeAt s (p ++ [t.name]) d q → NodeAt t p d q


/-! ### Generic list helpers -/

lemma dropWhile_append_eval (p : Char → Bool) (l1 l2 : List Char) :
    List.dropWhile p (l1 ++ l2) =
      (if l1.all p then List.dropWhile p l2 else List.dropWhile p l1 ++ l2) := by
  induction l1 with
  | nil => simp
  | cons a t ih =>
    by_cases hp : p a = true
    · simp [List.dropWhile_cons, hp, ih, List.all_cons]
    · simp [List.dropWhile_cons, hp, List.all_cons]

lemma takeWhile_append_eval (p : Char → Bool) (l1 l2 : List Char) :
    List.takeWhile p (l1 ++ l2) =
      (if l1.all p then l1 ++ List.takeWhile p l2 else List.takeWhile p l1) := by
  induction l1 with
  | nil => simp
  | cons a t ih =>
    by_cases hp : p a = true
    · simp [List.takeWhile_cons, hp, ih, List.all_cons]
      split <;> simp
    · simp [List.takeWhile_cons, hp, List.all_cons]

lemma head_of_dropWhile_not (p : Char → Bool) (l : List Char) (x : Char)
    (h : (List.dropWhile p l).head? = some x) : p x = false := by
  induction l with
  | nil => simp at h
  | cons a t ih =>
    by_cases hp : p a = true
    · rw [List.dropWhile_cons_of_pos hp] at h; exact ih h
    · rw [List.dropWhile_cons_of_neg hp] at h
      simp at h
      subst h
      exact Bool.eq_false_iff.mpr hp

lemma mem_dropWhile_sub (p : Char → Bool) (l : List Char) (x : Char)
    (h : x ∈ List.dropWhile p l) : x ∈ l :=
  (List.dropWhile_sublist p).mem h

lemma length_dropWhile_le_eval (p : Char → Bool) (l : List Char) :
    (List.dropWhile p l).length ≤ l.length :=
  (List.dropWhile_sublist p).length_le

lemma dropWhile_length_eq (p : Char → Bool) (l : List Char)
    (h : (List.dropWhile p l).length = l.length) : List.dropWhile p l = l :=
  (List.dropWhile_sublist p).eq_of_length h

lemma getLast?_cons_ne_nil (a : Char) (l : List Char) (h : l ≠ []) :
    (a :: l).getLast? = l.getLast? := by
  cases l with
  | nil => exact absurd rfl h
  | cons b t => exact List.getLast?_cons_cons

lemma map_id_of_fixed {f : Char → Char} {l : List Char} (h : ∀ x ∈ l, f x = x) :
    l.map f = l := by
  induction l with
  | nil => rfl
  | cons a t ih => simp [h a (by simp), ih (fun x hx => h x (by simp [hx]))]

/-! ### `pyStrip` theory -/

lemma getLast?_dropWhile (p : Char → Bool) (l : List Char) (h : l.dropWhile p ≠ []) :
    (l.dropWhile p).getLast? = l.getLast? := by
  induction l with
  | nil => exact absurd rfl h
  | cons a t ih =>
    by_cases hp : p a = true
    · rw [List.dropWhile_cons_of_pos hp] at h ⊢
      have ht : t ≠ [] := by
        intro he; rw [he] at h; exact h rfl
      rw [ih h, getLast?_cons_ne_nil a t ht]
    · rw [List.dropWhile_cons_of_neg hp]

lemma pyStrip_head (s : List Char) (x : Char) (h : (pyStrip s).head? = some x) :
    isStripChar x = false := by
  unfold pyStrip at h
  rw [List.head?_reverse] at h
  have h1 : ((s.dropWhile isStripChar).reverse.dropWhile isStripChar) ≠ [] := by
    intro he; rw [he] at h; simp at h
  rw [getLast?_dropWhile isStripChar _ h1, List.getLast?_reverse] at h
  exact head_of_dropWhile_not isStripChar s x h

lemma pyStrip_last (s : List Char) (x : Char) (h : (pyStrip s).getLast? = some x) :
    isStripChar x = false := by
  unfold pyStrip at h
  rw [List.getLast?_reverse] at h
  exact head_of_dropWhile_not isStripChar _ x h

lemma dropWhile_eq_self_of_head (p : Char → Bool) (s : List Char)
    (h : ∀ x, s.head? = some x → p x = false) : List.dropWhile p s = s := by
  cases s with
  | nil => rfl
  | cons a t => exact List.dropWhile_cons_of_neg (by simp [h a rfl])

lemma strip_eq_self_of_ends (s : List Char)
    (hh : ∀ x, s.head? = some x → isStripChar x = false)
    (hl : ∀ x, s.getLast? = some x → isStripChar x = false) : pyStrip s = s := by
  unfold pyStrip
  rw [dropWhile_eq_self_of_head isStripChar s hh]
  rw [dropWhile_eq_self_of_head isStripChar s.reverse (by
    intro x hx; rw [List.head?_reverse] at hx; exact hl x hx)]
  exact List.reverse_reverse s

lemma pyStrip_idem (s : List Char) : pyStrip (pyStrip s) = pyStrip s :=
  strip_eq_self_of_ends (pyStrip s) (pyStrip_head s) (pyStrip_last s)

lemma pyStrip_length_le (s : List Char) : (pyStrip s).length ≤ s.length := by
  unfold pyStrip
  calc ((s.dropWhile isStripChar).reverse.dropWhile isStripChar).reverse.length
      = ((s.dropWhile isStripChar).reverse.dropWhile isStripChar).length := by
        rw [List.length_reverse]
    _ ≤ (s.dropWhile isStripChar).reverse.length := length_dropWhile_le_eval _ _
    _ = (s.dropWhile isStripChar).length := by rw [List.length_reverse]
    _ ≤ s.length := length_dropWhile_le_eval _ _

lemma pyStrip_eq_of_length (s : List Char) (h : (pyStrip s).length = s.length) :
    pyStrip s = s := by
  unfold pyStrip at *
  rw [List.length_reverse] at h
  have h2 : (s.dropWhile isStripChar).length = s.length := by
    have a1 := length_dropWhile_le_eval isStripChar ((s.dropWhile isStripChar).reverse)
    rw [List.length_reverse] at a1
    have a2 := length_dropWhile_le_eval isStripChar s
    omega
  rw [dropWhile_length_eq _ _ h2] at h ⊢
  have h3 : (List.dropWhile isStripChar s.reverse).length = s.reverse.length := by
    rw [List.length_reverse]; exact h
  rw [dropWhile_length_eq _ _ h3]
  exact List.reverse_reverse s

lemma pyStrip_length_lt (s : List Char) (h : pyStrip s ≠ s) :
    (pyStrip s).length < s.length := by
  have h1 := pyStrip_length_le s
  rcases Nat.lt_or_ge (pyStrip s).length s.length with hlt | hge
  · exact hlt
  · exact absurd (pyStrip_eq_of_length s (Nat.le_antisymm h1 hge)) h

lemma mem_pyStrip_sub (s : List Char) (x : Char) (h : x ∈ pyStrip s) : x ∈ s := by
  unfold pyStrip at h
  rw [List.mem_reverse] at h
  have h1 := mem_dropWhile_sub isStripChar _ x h
  rw [List.mem_reverse] at h1
  exact mem_dropWhile_sub isStripChar _ x h1

lemma pyStrip_nil_all (s : List Char) (h : pyStrip s = []) :
    ∀ x ∈ s, isStripChar x = true := by
  unfold pyStrip at h
  rw [List.reverse_eq_nil_iff] at h
  have hA : s.dropWhile isStripChar = [] := by
    cases hc : s.dropWhile isStripChar with
    | nil => rfl
    | cons a t =>
      have ha : isStripChar a = false :=
        head_of_dropWhile_not isStripChar s a (by rw [hc]; rfl)
      have : a ∈ (s.dropWhile isStripChar).reverse := by rw [hc]; simp
      have := List.dropWhile_eq_nil_iff.mp h a this
      rw [ha] at this
      exact absurd this (by simp)
  exact List.dropWhile_eq_nil_iff.mp hA

/-! ### `splitext` theory -/

lemma eq_dot_of_notDot_false {c : Char} (h : notDot c = false) : c = '.' := by
  simpa [notDot] using h

lemma splitext_append (s : List Char) : (splitext s).1 ++ (splitext s).2 = s := by
  unfold splitext
  cases hc : (s.reverse).dropWhile notDot with
  | nil => simp
  | cons h rbase =>
    have hdot : h = '.' :=
      eq_dot_of_notDot_false (head_of_dropWhile_not notDot s.reverse h (by rw [hc]; rfl))
    have hsplit : (s.reverse).takeWhile notDot ++ (h :: rbase) = s.reverse := by
      rw [← hc]; exact List.takeWhile_append_dropWhile notDot s.reverse
    by_cases hany : rbase.any notDot = true
    · simp only [hany, if_true]
      have h2 : rbase.reverse ++ [h] ++ ((s.reverse).takeWhile notDot).reverse = s := by
        have h3 := congrArg List.reverse hsplit
        rw [List.reverse_append, List.reverse_cons, List.reverse_reverse] at h3
        exact h3
      rw [hdot] at h2
      rw [List.append_assoc, List.singleton_append] at h2
      exact h2
    · simp [hany]

lemma splitext_ext_shape (s : List Char) :
    (splitext s).2 = [] ∨
      ∃ t, (splitext s).2 = '.' :: t ∧ t.all notDot = true := by
  unfold splitext
  cases hc : (s.reverse).dropWhile notDot with
  | nil => simp
  | cons h rbase =>
    by_cases hany : rbase.any notDot = true
    · simp only [hany, if_true]
      right
      refine ⟨((s.reverse).takeWhile notDot).reverse, rfl, ?_⟩
      rw [List.all_reverse]
      exact List.all_eq_true.mpr (fun x hx => List.mem_takeWhile_imp hx)
    · simp [hany]

lemma splitext_dotless (s : List Char) (h : s.all notDot = true) :
    splitext s = (s, []) := by
  unfold splitext
  have : (s.reverse).dropWhile notDot = [] := by
    rw [List.dropWhile_eq_nil_iff]
    intro x hx
    exact List.all_eq_true.mp h x (List.mem_reverse.mp hx)
  rw [this]

lemma dropWhile_ne_nil_of_not_all (p : Char → Bool) (l : List Char) (h : l.all p = false) :
    l.dropWhile p ≠ [] := by
  intro he
  rw [List.dropWhile_eq_nil_iff] at he
  rw [List.all_eq_true.mpr he] at h
  simp at h

lemma splitext_concrete (x t : List Char) (ht : t.all notDot = true)
    (hx : x.any notDot = true) : splitext (x ++ '.' :: t) = (x, '.' :: t) := by
  have hrev : (x ++ '.' :: t).reverse = t.reverse ++ '.' :: x.reverse := by
    rw [List.reverse_append, List.reverse_cons, List.append_assoc]
    simp
  unfold splitext
  rw [hrev, dropWhile_append_eval]
  rw [List.all_reverse.symm] at ht
  rw [if_pos ht]
  rw [List.dropWhile_cons_of_neg (by simp [notDot])]
  simp only [List.any_reverse, hx, if_true]
  rw [takeWhile_append_eval, if_pos ht]
  rw [List.takeWhile_cons_of_neg (by simp [notDot])]
  simp

lemma splitext_append_dotless (m d : List Char) (hm : splitext m = (m, []))
    (hd : d.all notDot = true) : splitext (m ++ d) = (m ++ d, []) := by
  have hrev : (m ++ d).reverse = d.reverse ++ m.reverse := List.reverse_append m d
  cases hc : (m.reverse).dropWhile notDot with
  | nil =>
    have hml : ∀ x ∈ m, notDot x = true := by
      intro x hx
      exact List.dropWhile_eq_nil_iff.mp hc x (List.mem_reverse.mpr hx)
    apply splitext_dotless
    rw [List.all_eq_true]
    intro x hx
    rcases List.mem_append.mp hx with h1 | h1
    · exact hml x h1
    · exact List.all_eq_true.mp hd x h1
  | cons h rbase =>
    have hanyf : rbase.any notDot = false := by
      by_contra hcon
      have hany : rbase.any notDot = true := by
        cases ha : rbase.any notDot with
        | true => rfl
        | false => exact absurd ha hcon
      unfold splitext at hm
      rw [hc] at hm
      simp only [hany, if_true] at hm
      have := congrArg Prod.snd hm
      simp at this
    unfold splitext
    rw [hrev, dropWhile_append_eval, if_pos (List.all_reverse.symm ▸ hd), hc]
    simp [hanyf]

lemma splitext_ext_len_le (l1 l2 : List Char) :
    (splitext (l1 ++ '.' :: l2)).2.length ≤ l2.length + 1 := by
  have hrev : (l1 ++ '.' :: l2).reverse = l2.reverse ++ '.' :: l1.reverse := by
    rw [List.reverse_append, List.reverse_cons, List.append_assoc]
    simp
  unfold splitext
  cases hc : ((l1 ++ '.' :: l2).reverse).dropWhile notDot with
  | nil => simp
  | cons h rbase =>
    by_cases hany : rbase.any notDot = true
    · simp only [hany, if_true]
      simp only [List.length_cons, List.length_reverse]
      have : (((l1 ++ '.' :: l2).reverse).takeWhile notDot).length ≤ l2.length := by
        rw [hrev, takeWhile_append_eval]
        by_cases hall : (l2.reverse).all notDot = true
        · rw [if_pos hall]
          rw [List.takeWhile_cons_of_neg (by simp [notDot])]
          simp
        · rw [if_neg hall]
          calc ((l2.reverse).takeWhile notDot).length ≤ l2.reverse.length :=
                (List.takeWhile_sublist notDot).length_le
            _ = l2.length := List.length_reverse l2.reverse ▸ by simp
      omega
    · simp [hany]

lemma splitext_mid_ne_nil (x t : List Char) (hx : x.any notDot = true) :
    (splitext (x ++ '.' :: t)).2 ≠ [] ∧ (splitext (x ++ '.' :: t)).1 ≠ [] := by
  have hrev : (x ++ '.' :: t).reverse = t.reverse ++ '.' :: x.reverse := by
    rw [List.reverse_append, List.reverse_cons, List.append_assoc]
    simp
  have hxne : x ≠ [] := by
    intro he; rw [he] at hx; simp at hx
  unfold splitext
  rw [hrev, dropWhile_append_eval]
  by_cases hall : (t.reverse).all notDot = true
  · rw [if_pos hall]
    rw [List.dropWhile_cons_of_neg (by simp [notDot])]
    simp only [List.any_reverse, hx, if_true]
    constructor
    · simp
    · simp [hxne]
  · rw [if_neg hall]
    cases hdw : (t.reverse).dropWhile notDot with
    | nil => exact absurd hdw (dropWhile_ne_nil_of_not_all notDot t.reverse
        (by cases ha : (t.reverse).all notDot with
            | true => exact absurd ha hall
            | false => rfl))
    | cons h u =>
      simp only [List.cons_append]
      have hmem : ∃ e ∈ x.reverse, notDot e = true := by
        rw [← List.any_eq_true, List.any_reverse]
        exact hx
      have hany2 : (u ++ '.' :: x.reverse).any notDot = true := by
        rw [List.any_eq_true]
        rcases hmem with ⟨e, he, hne⟩
        exact ⟨e, List.mem_append.mpr (Or.inr (List.mem_cons.mpr (Or.inr he))), hne⟩
      simp only [hany2, if_true]
      constructor
      · simp
      · intro hcon
        rw [List.reverse_eq_nil_iff] at hcon
        simp at hcon

lemma splitext_base_head (s : List Char) (h : (splitext s).1 ≠ []) :
    (splitext s).1.head? = s.head? := by
  have := splitext_append s
  calc (splitext s).1.head? = ((splitext s).1 ++ (splitext s).2).head? :=
        (List.head?_append_of_ne_nil _ h).symm
    _ = s.head? := by rw [this]

lemma splitext_ext_last (s : List Char) (h : (splitext s).2 ≠ []) :
    (splitext s).2.getLast? = s.getLast? := by
  have := splitext_append s
  calc (splitext s).2.getLast? = ((splitext s).1 ++ (splitext s).2).getLast? :=
        (List.getLast?_append_of_ne_nil _ h).symm
    _ = s.getLast? := by rw [this]

/-! ### Character classes and substitution -/

lemma subChar_not_forbidden (c : Char) : isForbidden (subChar c) = false := by
  unfold subChar
  by_cases h : isForbidden c = true
  · rw [if_pos h]; decide
  · rw [if_neg h]
    cases hc : isForbidden c with
    | false => rfl
    | true => exact absurd hc h

lemma strip_not_forbidden (c : Char) (h : isStripChar c = true) : isForbidden c = false := by
  unfold isStripChar at h
  rcases Bool.or_eq_true_iff.mp h with h1 | h1 <;>
    · rw [decide_eq_true_iff] at h1; subst h1; decide

lemma subChar_strip_class (c : Char) : isStripChar (subChar c) = isStripChar c := by
  unfold subChar
  by_cases h : isForbidden c = true
  · rw [if_pos h]
    cases hs : isStripChar c with
    | false => decide
    | true => rw [strip_not_forbidden c hs] at h; exact absurd h (by simp)
  · rw [if_neg h]

lemma subForbidden_length (s : List Char) : (subForbidden s).length = s.length :=
  List.length_map s subChar

lemma mem_subForbidden_not_forbidden (s : List Char) (x : Char) (h : x ∈ subForbidden s) :
    isForbidden x = false := by
  rcases List.mem_map.mp h with ⟨a, _, ha2⟩
  rw [← ha2]
  exact subChar_not_forbidden a

lemma dropWhile_map_subChar (l : List Char) :
    List.dropWhile isStripChar (l.map subChar) = (List.dropWhile isStripChar l).map subChar := by
  induction l with
  | nil => rfl
  | cons a t ih =>
    rw [List.map_cons]
    by_cases hp : isStripChar a = true
    · rw [List.dropWhile_cons_of_pos (by rw [subChar_strip_class]; exact hp),
        List.dropWhile_cons_of_pos hp]
      exact ih
    · rw [List.dropWhile_cons_of_neg (by rw [subChar_strip_class]; exact hp),
        List.dropWhile_cons_of_neg hp, List.map_cons]

lemma pyStrip_subForbidden (s : List Char) :
    pyStrip (subForbidden s) = subForbidden (pyStrip s) := by
  unfold pyStrip subForbidden
  rw [dropWhile_map_subChar, ← List.map_reverse, dropWhile_map_subChar, ← List.map_reverse]

lemma subForbidden_getLast? (s : List Char) :
    (subForbidden s).getLast? = s.getLast?.map subChar := by
  unfold subForbidden
  rw [List.getLast?_map]

/-! ### Reserved-name lemmas -/

lemma toUpperAscii_fix (c : Char) (h : ¬ (97 ≤ c.toNat ∧ c.toNat ≤ 122)) :
    toUpperAscii c = c := by
  unfold toUpperAscii
  rw [if_neg h]

lemma char_eq_of_toNat {c d : Char} (h : c.toNat = d.toNat) : c = d :=
  Char.ext (UInt32.ext (by simpa [Char.toNat] using h))

lemma toNat_of_mem_forbidden {x : Char} (h : x ∈ forbiddenChars) :
    x.toNat = 60 ∨ x.toNat = 62 ∨ x.toNat = 58 ∨ x.toNat = 34 ∨ x.toNat = 47 ∨
    x.toNat = 92 ∨ x.toNat = 124 ∨ x.toNat = 63 ∨ x.toNat = 42 := by
  simp only [forbiddenChars, List.mem_cons, List.not_mem_nil, or_false] at h
  rcases h with h | h | h | h | h | h | h | h | h <;> (subst h; decide)

/-- A character whose ASCII upper-casing lands in the letter/digit range
49-90 is a letter or digit: not forbidden, not a dot, not a space. -/
lemma char_props_of_upper_range (x : Char) (h1 : 65 ≤ (toUpperAscii x).toNat)
    (h2 : (toUpperAscii x).toNat ≤ 90) :
    isForbidden x = false ∧ notDot x = true ∧ isStripChar x = false := by
  by_cases hlow : 97 ≤ x.toNat ∧ x.toNat ≤ 122
  · obtain ⟨hl1, hl2⟩ := hlow
    refine ⟨?_, ?_, ?_⟩
    · unfold isForbidden
      rw [Bool.or_eq_false_iff]
      refine ⟨by rw [decide_eq_false_iff_not]; omega, ?_⟩
      rw [decide_eq_false_iff_not]
      intro hmem
      have := toNat_of_mem_forbidden hmem
      omega
    · unfold notDot
      rw [decide_eq_true_iff]
      intro he
      subst he
      exact absurd hl1 (by decide)
    · unfold isStripChar
      rw [Bool.or_eq_false_iff]
      refine ⟨?_, ?_⟩ <;> rw [decide_eq_false_iff_not]
      · intro he; subst he; exact absurd hl1 (by decide)
      · intro he; subst he; exact absurd hl1 (by decide)
  · rw [toUpperAscii_fix x hlow] at h1 h2
    refine ⟨?_, ?_, ?_⟩
    · unfold isForbidden
      rw [Bool.or_eq_false_iff]
      refine ⟨by rw [decide_eq_false_iff_not]; omega, ?_⟩
      rw [decide_eq_false_iff_not]
      intro hmem
      have := toNat_of_mem_forbidden hmem
      omega
    · unfold notDot
      rw [decide_eq_true_iff]
      intro he
      subst he
      exact absurd h1 (by decide)
    · unfold isStripChar
      rw [Bool.or_eq_false_iff]
      refine ⟨?_, ?_⟩ <;> rw [decide_eq_false_iff_not]
      · intro he; subst he; exact absurd h1 (by decide)
      · intro he; subst he; exact absurd h1 (by decide)

/-- The digit of `COM[1-9]` / `LPT[1-9]` is a digit character: not
forbidden, not a dot, not a space. -/
lemma char_props_of_digit (x : Char) (h : isDigit19 x = true) :
    isForbidden x = false ∧ notDot x = true ∧ isStripChar x = false := by
  unfold isDigit19 at h
  rw [Bool.and_eq_true, decide_eq_true_iff, decide_eq_true_iff] at h
  obtain ⟨h1, h2⟩ := h
  refine ⟨?_, ?_, ?_⟩
  · unfold isForbidden
    rw [Bool.or_eq_false_iff]
    refine ⟨by rw [decide_eq_false_iff_not]; omega, ?_⟩
    rw [decide_eq_false_iff_not]
    intro hmem
    have := toNat_of_mem_forbidden hmem
    omega
  · unfold notDot
    rw [decide_eq_true_iff]
    intro he
    subst he
    exact absurd h1 (by decide)
  · unfold isStripChar
    rw [Bool.or_eq_false_iff]
    refine ⟨?_, ?_⟩ <;> rw [decide_eq_false_iff_not]
    · intro he; subst he; exact absurd h1 (by decide)
    · intro he; subst he; exact absurd h1 (by decide)

lemma dev3_char_range : ∀ D ∈ dev3, ∀ c ∈ D, 65 ≤ c.toNat ∧ c.toNat ≤ 90 := by decide

/-- Structure of a name matched by the reserved-name regex: a device-name
head of at least three letter-or-digit characters followed by a remainder
matching `(\..*)?$`.  The head's first character is always a letter. -/
lemma reserved_decomp (name : List Char) (h : isReserved name = true) :
    ∃ dev rest, name = dev ++ rest ∧ 3 ≤ dev.length ∧
      (∀ x ∈ dev, isForbidden x = false ∧ notDot x = true ∧ isStripChar x = false) ∧
      (∀ c, dev.head? = some c → 65 ≤ (toUpperAscii c).toNat ∧ (toUpperAscii c).toNat ≤ 90) ∧
      restOk rest = true := by
  unfold isReserved at h
  cases hds : devSplit name with
  | none => rw [hds] at h; exact absurd h (by simp)
  | some r =>
    rw [hds] at h
    unfold devSplit at hds
    by_cases hmem : ((name.take 3).map toUpperAscii) ∈ dev3
    · rw [if_pos hmem] at hds
      have hr : r = name.drop 3 := by
        have := Option.some.inj hds
        exact this.symm
      have hlen : (name.take 3).length = 3 := by
        have h1 : ((name.take 3).map toUpperAscii).length = 3 := by
          simp only [dev3, List.mem_cons, List.not_mem_nil, or_false] at hmem
          rcases hmem with hm | hm | hm | hm <;> (rw [hm]; rfl)
        rw [List.length_map] at h1
        exact h1
      refine ⟨name.take 3, name.drop 3, (List.take_append_drop 3 name).symm, by omega, ?_, ?_, ?_⟩
      · intro x hx
        have hmm : toUpperAscii x ∈ (name.take 3).map toUpperAscii :=
          List.mem_map_of_mem toUpperAscii hx
        have := dev3_char_range _ hmem _ hmm
        exact char_props_of_upper_range x this.1 this.2
      · intro c hc
        have hx : c ∈ name.take 3 := List.mem_of_mem_head? hc
        have hmm : toUpperAscii c ∈ (name.take 3).map toUpperAscii :=
          List.mem_map_of_mem toUpperAscii hx
        exact dev3_char_range _ hmem _ hmm
      · rw [← hr]; exact h
    · rw [if_neg hmem] at hds
      match name, hds with
      | x :: y :: z :: d :: rest2, hds =>
        by_cases hcond : (([x, y, z].map toUpperAscii = ['C','O','M'] ∨
            [x, y, z].map toUpperAscii = ['L','P','T']) ∧ isDigit19 d = true)
        · have hr : r = rest2 := by
            simp only [hcond, if_pos] at hds
            exact (Option.some.inj hds).symm
          obtain ⟨hxyz, hd⟩ := hcond
          have hletters : ∀ c ∈ [x, y, z], 65 ≤ (toUpperAscii c).toNat ∧
              (toUpperAscii c).toNat ≤ 90 := by
            rcases hxyz with hm | hm <;>
            · simp only [List.map_cons, List.map_nil, List.cons.injEq, and_true] at hm
              obtain ⟨h1, h2, h3⟩ := hm
              intro c hc
              simp only [List.mem_cons, List.not_mem_nil, or_false] at hc
              rcases hc with hc | hc | hc
              · subst hc; rw [h1]; decide
              · subst hc; rw [h2]; decide
              · subst hc; rw [h3]; decide
          refine ⟨[x, y, z, d], rest2, by simp, by simp, ?_, ?_, ?_⟩
          · intro c hc
            simp only [List.mem_cons, List.not_mem_nil, or_false] at hc
            rcases hc with hc | hc | hc | hc
            · subst hc
              exact char_props_of_upper_range c (hletters c (by simp)).1 (hletters c (by simp)).2
            · subst hc
              exact char_props_of_upper_range c (hletters c (by simp)).1 (hletters c (by simp)).2
            · subst hc
              exact char_props_of_upper_range c (hletters c (by simp)).1 (hletters c (by simp)).2
            · subst hc
              exact char_props_of_digit c hd
          · intro c hc
            have hcx : x = c := by simpa using hc
            subst hcx
            exact hletters x (by simp)
          · rw [← hr]; exact h
        · have hds2 : (if (([x, y, z].map toUpperAscii = ['C','O','M'] ∨
              [x, y, z].map toUpperAscii = ['L','P','T']) ∧ isDigit19 d = true)
              then some rest2 else none) = some r := hds
          rw [if_neg hcond] at hds2
          exact absurd hds2 (by simp)

/-! ### Properties of the correction stages -/

lemma subChar_id (c : Char) (h : isForbidden c = false) : subChar c = c := by
  unfold subChar
  rw [h]
  rfl

lemma hasInvalid_false_mem (s : List Char) (h : hasInvalid s = false) :
    ∀ x ∈ s, isForbidden x = false := by
  intro x hx
  have := List.any_eq_false.mp h x hx
  cases hc : isForbidden x with
  | false => rfl
  | true => exact absurd hc this

lemma hasTrailing_false_strip (s : List Char) (h : hasTrailing s = false) :
    pyStrip s = s := by
  unfold hasTrailing at h
  rw [decide_eq_false_iff_not] at h
  exact not_not.mp h

lemma hasTrailing_true_strip (s : List Char) (h : hasTrailing s = true) :
    pyStrip s ≠ s := by
  unfold hasTrailing at h
  rwa [decide_eq_true_iff] at h

lemma strip_of_all_nonstrip (s : List Char) (h : ∀ x ∈ s, isStripChar x = false) :
    pyStrip s = s := by
  apply strip_eq_self_of_ends
  · intro x hx
    exact h x (List.mem_of_mem_head? hx)
  · intro x hx
    exact h x (List.mem_of_mem_getLast? hx)

lemma head_not_letter_not_reserved (c : Char) (r : List Char)
    (hh : ¬ (65 ≤ (toUpperAscii c).toNat ∧ (toUpperAscii c).toNat ≤ 90)) :
    isReserved (c :: r) = false := by
  cases hres : isReserved (c :: r) with
  | false => rfl
  | true =>
    obtain ⟨dev, rest, heq, hlen, _, hhead, _⟩ := reserved_decomp _ hres
    cases dev with
    | nil => simp at hlen
    | cons c0 d2 =>
      have hce : c = c0 := by
        have := congrArg List.head? heq
        simpa using this
      rw [hce] at hh
      exact absurd (hhead c0 rfl) hh

lemma not_reserved_underscore (r : List Char) : isReserved ('_' :: r) = false :=
  head_not_letter_not_reserved '_' r (by decide)

lemma not_reserved_of_strip_head (c : Char) (r : List Char) (h : isStripChar c = true) :
    isReserved (c :: r) = false := by
  apply head_not_letter_not_reserved
  unfold isStripChar at h
  rcases Bool.or_eq_true_iff.mp h with h1 | h1 <;>
    · rw [decide_eq_true_iff] at h1; subst h1; decide

lemma not_reserved_head_underscore (s : List Char) (h : s.head? = some '_') :
    isReserved s = false := by
  cases s with
  | nil => simp at h
  | cons c r =>
    have : c = '_' := by simpa using h
    subst this
    exact not_reserved_underscore r

lemma restOk_cases (r : List Char) (h : restOk r = true) :
    r = [] ∨ r = ['\n'] ∨ ∃ t, r = '.' :: t := by
  cases r with
  | nil => exact Or.inl rfl
  | cons x t =>
    have h2 : (if x = '.' then noNlButLast t else (decide (x = '\n') && t.isEmpty)) = true := h
    by_cases hx : x = '.'
    · exact Or.inr (Or.inr ⟨t, by rw [hx]⟩)
    · rw [if_neg hx, Bool.and_eq_true, decide_eq_true_iff, List.isEmpty_iff] at h2
      exact Or.inr (Or.inl (by rw [h2.1, h2.2]))

lemma fixSub_length (name : List Char) : (fixSub name).length = name.length := by
  unfold fixSub
  split
  · exact subForbidden_length name
  · rfl

lemma fixSub_not_forbidden (name : List Char) : ∀ x ∈ fixSub name, isForbidden x = false := by
  unfold fixSub
  split
  · exact fun x hx => mem_subForbidden_not_forbidden name x hx
  next h =>
    have hf : hasInvalid name = false := by
      cases hc : hasInvalid name with
      | false => rfl
      | true => exact absurd hc h
    exact hasInvalid_false_mem name hf

lemma bool_false_of_not_true {b : Bool} (h : ¬ b = true) : b = false := by
  cases b with
  | false => rfl
  | true => exact absurd rfl h

lemma fixSub_strip_comm (name : List Char) : pyStrip (fixSub name) = fixSub (pyStrip name) := by
  unfold fixSub
  by_cases h : hasInvalid name = true
  · rw [if_pos h]
    by_cases h2 : hasInvalid (pyStrip name) = true
    · rw [if_pos h2]
      exact pyStrip_subForbidden name
    · rw [if_neg h2]
      rw [pyStrip_subForbidden name]
      unfold subForbidden
      exact map_id_of_fixed (fun x hx =>
        subChar_id x (hasInvalid_false_mem _ (bool_false_of_not_true h2) x hx))
  · rw [if_neg h]
    by_cases h2 : hasInvalid (pyStrip name) = true
    · have hf : hasInvalid name = false := by
        cases hc : hasInvalid name with
        | false => rfl
        | true => exact absurd hc h
      rcases List.any_eq_true.mp h2 with ⟨x, hx1, hx2⟩
      have := hasInvalid_false_mem name hf x (mem_pyStrip_sub name x hx1)
      rw [this] at hx2
      exact absurd hx2 (by simp)
    · rw [if_neg h2]

lemma fixSub_strip_fix (name : List Char) (h : hasTrailing name = false) :
    pyStrip (fixSub name) = fixSub name := by
  rw [fixSub_strip_comm, hasTrailing_false_strip name h]

lemma fixSub_strip_nil (name : List Char) (h : pyStrip (fixSub name) = []) :
    pyStrip name = [] := by
  rw [fixSub_strip_comm] at h
  unfold fixSub at h
  by_cases h2 : hasInvalid (pyStrip name) = true
  · rw [if_pos h2] at h
    unfold subForbidden at h
    rw [List.map_eq_nil_iff] at h
    exact h
  · rwa [if_neg h2] at h

lemma fixSub_strip_ne (name : List Char) (h : hasTrailing name = true) :
    pyStrip (fixSub name) ≠ fixSub name := by
  intro hcon
  have h1 : (fixSub (pyStrip name)).length = (fixSub name).length := by
    rw [← fixSub_strip_comm, hcon]
  rw [fixSub_length, fixSub_length] at h1
  exact hasTrailing_true_strip name h (pyStrip_eq_of_length name h1)

lemma unnamed_props : (∀ x ∈ unnamedChars, isForbidden x = false ∧ isStripChar x = false) ∧
    unnamedChars.length = 7 ∧ unnamedChars.all notDot = true ∧
    splitext unnamedChars = (unnamedChars, []) ∧ pyStrip unnamedChars = unnamedChars := by
  refine ⟨by decide, rfl, by decide, by decide, by decide⟩

lemma fixTrim_all_strip (name : List Char)
    (hnil : pyStrip (fixSub name) = []) : ∀ x ∈ name, isStripChar x = true := by
  intro x hx
  have h1 := pyStrip_nil_all _ hnil
  unfold fixSub at h1
  by_cases hi : hasInvalid name = true
  · rw [if_pos hi] at h1
    have h2 := h1 (subChar x) (List.mem_map_of_mem subChar hx)
    rwa [subChar_strip_class x] at h2
  · rw [if_neg hi] at h1
    exact h1 x hx

lemma fixTrim_unnamed_not_reserved (name : List Char) (hne : name ≠ [])
    (hnil : pyStrip (fixSub name) = []) :
    isReserved name = false := by
  cases name with
  | nil => exact absurd rfl hne
  | cons c r =>
    exact not_reserved_of_strip_head c r (fixTrim_all_strip _ hnil c (by simp))

/-- Case analysis of the trimming stage. -/
lemma fixTrim_cases (name : List Char) :
    (hasTrailing name = false ∧ fixTrim name = fixSub name) ∨
    (hasTrailing name = true ∧ pyStrip (fixSub name) ≠ [] ∧
      fixTrim name = pyStrip (fixSub name) ∧ (fixTrim name).length < name.length) ∨
    (hasTrailing name = true ∧ pyStrip (fixSub name) = [] ∧ fixTrim name = unnamedChars) := by
  unfold fixTrim
  by_cases ht : hasTrailing name = true
  · rw [if_pos ht]
    by_cases hnil : pyStrip (fixSub name) = []
    · rw [if_pos hnil]
      exact Or.inr (Or.inr ⟨ht, hnil, rfl⟩)
    · rw [if_neg hnil]
      refine Or.inr (Or.inl ⟨ht, hnil, rfl, ?_⟩)
      have h1 := pyStrip_length_lt (fixSub name) (fixSub_strip_ne name ht)
      rw [fixSub_length] at h1
      exact h1
  · rw [if_neg ht]
    exact Or.inl ⟨bool_false_of_not_true ht, rfl⟩

lemma fixTrim_ne_nil (name : List Char) (hne : name ≠ []) : fixTrim name ≠ [] := by
  rcases fixTrim_cases name with ⟨_, he⟩ | ⟨_, hnil, he, _⟩ | ⟨_, _, he⟩
  · rw [he]
    intro hcon
    have := fixSub_length name
    rw [hcon] at this
    exact hne (List.length_eq_zero.mp this.symm)
  · rw [he]; exact hnil
  · rw [he]; decide

lemma fixTrim_not_forbidden (name : List Char) :
    ∀ x ∈ fixTrim name, isForbidden x = false := by
  rcases fixTrim_cases name with ⟨_, he⟩ | ⟨_, _, he, _⟩ | ⟨_, _, he⟩ <;> rw [he]
  · exact fixSub_not_forbidden name
  · exact fun x hx => fixSub_not_forbidden name x (mem_pyStrip_sub _ x hx)
  · exact fun x hx => (unnamed_props.1 x hx).1

lemma fixTrim_strip_fix (name : List Char) : pyStrip (fixTrim name) = fixTrim name := by
  rcases fixTrim_cases name with ⟨ht, he⟩ | ⟨_, _, he, _⟩ | ⟨_, _, he⟩ <;> rw [he]
  · exact fixSub_strip_fix name ht
  · exact pyStrip_idem (fixSub name)
  · exact unnamed_props.2.2.2.2

lemma fixTrim_length_le (name : List Char) (h7 : 7 ≤ name.length) :
    (fixTrim name).length ≤ name.length := by
  rcases fixTrim_cases name with ⟨_, he⟩ | ⟨_, _, he, hl⟩ | ⟨_, _, he⟩ <;> rw [he]
  · rw [fixSub_length]
  · rw [← he]; omega
  · rw [unnamed_props.2.1]; omega

/-! ### Properties of `fixCore` -/

lemma fixCore_ne_nil (name : List Char) (hne : name ≠ []) : fixCore name ≠ [] := by
  unfold fixCore
  split
  · simp
  · exact fixTrim_ne_nil name hne

lemma fixCore_not_forbidden (name : List Char) :
    ∀ x ∈ fixCore name, isForbidden x = false := by
  unfold fixCore
  split
  · intro x hx
    rcases List.mem_cons.mp hx with hx | hx
    · subst hx; decide
    · exact fixTrim_not_forbidden name x hx
  · exact fixTrim_not_forbidden name

lemma fixCore_strip_fix (name : List Char) (hne : name ≠ []) :
    pyStrip (fixCore name) = fixCore name := by
  unfold fixCore
  split
  · apply strip_eq_self_of_ends
    · intro x hx
      have hux : '_' = x := by simpa using hx
      rw [← hux]
      decide
    · intro x hx
      rw [getLast?_cons_ne_nil '_' (fixTrim name) (fixTrim_ne_nil name hne)] at hx
      have h1 := fixTrim_strip_fix name
      have h2 : (pyStrip (fixTrim name)).getLast? = some x := by rw [h1]; exact hx
      exact pyStrip_last _ x h2
  · exact fixTrim_strip_fix name

lemma fixCore_head_reserved (name : List Char) (hr : isReserved name = true) :
    (fixCore name).head? = some '_' := by
  unfold fixCore
  rw [if_pos hr]
  rfl

/-! ### Truncation analysis -/

lemma take_ne_nil (l : List Char) (n : Nat) (h1 : 1 ≤ n) (h2 : l ≠ []) : l.take n ≠ [] := by
  cases l with
  | nil => exact absurd rfl h2
  | cons c t =>
    cases n with
    | zero => omega
    | succ m => simp

lemma head?_take (l : List Char) (n : Nat) (h : 1 ≤ n) : (l.take n).head? = l.head? := by
  cases l with
  | nil => simp
  | cons c t =>
    cases n with
    | zero => omega
    | succ m => simp

lemma truncate_mem (m : List Char) (L : Nat) (x : Char) (h : x ∈ truncateName m L) :
    x ∈ m := by
  unfold truncateName pyTake at h
  rcases List.mem_append.mp h with h1 | h1
  · have hx : x ∈ (splitext m).1 := by
      split at h1 <;> exact List.mem_of_mem_take h1
    rw [← splitext_append m]
    exact List.mem_append.mpr (Or.inl hx)
  · rw [← splitext_append m]
    exact List.mem_append.mpr (Or.inr h1)

/-- Truncation of a name with no extension (it has no dots, or only
leading dots): Python takes the first `maxLength` characters. -/
lemma truncate_dotless_case {c : Char} (m : List Char) (L : Nat) (hm : m ≠ []) (h1 : 1 ≤ L)
    (hall : ∀ x ∈ m, notDot x = true ∧ isStripChar x = false) (hhead : m.head? = some c) :
    truncateName m L ≠ [] ∧ (truncateName m L).length ≤ L ∧
    pyStrip (truncateName m L) = truncateName m L ∧
    (truncateName m L).head? = some c := by
  have hsp : splitext m = (m, []) :=
    splitext_dotless m (List.all_eq_true.mpr (fun x hx => (hall x hx).1))
  have heq : truncateName m L = m.take L := by
    unfold truncateName
    rw [hsp]
    simp [pyTake]
  rw [heq]
  refine ⟨take_ne_nil m L h1 hm, ?_, ?_, ?_⟩
  · rw [List.length_take]; omega
  · exact strip_of_all_nonstrip _ (fun x hx => (hall x (List.mem_of_mem_take hx)).2)
  · rw [head?_take m L h1]; exact hhead

/-- Truncation of a name of length `L + 1` with a real extension: the base
is cut so the result has length exactly `L`, keeping the underscore head
and the extension's trailing character. -/
lemma truncate_ext_case (m : List Char) (L : Nat) (x0 t0 : List Char)
    (hm : m = x0 ++ '.' :: t0) (hany : x0.any notDot = true)
    (hhead : m.head? = some '_')
    (hlast : ∀ c, m.getLast? = some c → isStripChar c = false)
    (hsum : x0.length + t0.length = L) (hx2 : 2 ≤ x0.length) :
    truncateName m L ≠ [] ∧ (truncateName m L).length ≤ L ∧
    pyStrip (truncateName m L) = truncateName m L ∧
    (truncateName m L).head? = some '_' := by
  have hpair := splitext_mid_ne_nil x0 t0 hany
  rw [← hm] at hpair
  obtain ⟨hext_ne, hbase_ne⟩ := hpair
  have hextlen : (splitext m).2.length ≤ t0.length + 1 := by
    rw [hm]; exact splitext_ext_len_le x0 t0
  have hext_le : (splitext m).2.length ≤ L - 1 := by omega
  have hext_pos : 1 ≤ (splitext m).2.length := by
    cases hc : (splitext m).2 with
    | nil => exact absurd hc hext_ne
    | cons c t => simp
  have hk : ((L : Int) - ((splitext m).2.length : Int)).toNat = L - (splitext m).2.length := by
    omega
  have heq : truncateName m L = (splitext m).1.take (L - (splitext m).2.length) ++ (splitext m).2 := by
    unfold truncateName pyTake
    rw [if_pos (by omega : (0:Int) ≤ (L : Int) - ((splitext m).2.length : Int)), hk]
  have hk1 : 1 ≤ L - (splitext m).2.length := by omega
  rw [heq]
  refine ⟨?_, ?_, ?_, ?_⟩
  · intro hcon
    rw [List.append_eq_nil] at hcon
    exact hext_ne hcon.2
  · rw [List.length_append, List.length_take]
    have := Nat.min_le_left (L - (splitext m).2.length) (splitext m).1.length
    omega
  · apply strip_eq_self_of_ends
    · intro c hc
      rw [List.head?_append_of_ne_nil _ (take_ne_nil _ _ hk1 hbase_ne)] at hc
      rw [head?_take _ _ hk1, splitext_base_head m hbase_ne, hhead] at hc
      have : c = '_' := by simpa using hc.symm
      subst this
      decide
    · intro c hc
      rw [List.getLast?_append_of_ne_nil _ hext_ne, splitext_ext_last m hext_ne] at hc
      exact hlast c hc
  · rw [List.head?_append_of_ne_nil _ (take_ne_nil _ _ hk1 hbase_ne)]
    rw [head?_take _ _ hk1, splitext_base_head m hbase_ne]
    exact hhead

/-- When the corrected name exceeds `maxLength` even though the original
fit, only two scenarios are possible: the `unnamed` fallback overflowed a
small limit, or the reserved-name underscore pushed a maximal-length name
one character over. -/
lemma trunc_classify (name : List Char) (L : Nat) (hne : name ≠ []) (hlen : name.length ≤ L)
    (hbig : L < (fixCore name).length) :
    (fixCore name = unnamedChars ∧ isReserved name = false ∧ L < 7) ∨
    (isReserved name = true ∧ hasTrailing name = false ∧ name.length = L ∧
      fixCore name = '_' :: fixSub name) := by
  rcases fixTrim_cases name with ⟨ht, he⟩ | ⟨ht, hnil, he, hl⟩ | ⟨ht, hnil, he⟩
  · by_cases hr : isReserved name = true
    · right
      have hcoreq : fixCore name = '_' :: fixSub name := by
        unfold fixCore
        rw [if_pos hr, he]
      have hclen : (fixCore name).length = name.length + 1 := by
        rw [hcoreq, List.length_cons, fixSub_length]
      refine ⟨hr, ht, by omega, hcoreq⟩
    · have hcoreq : fixCore name = fixSub name := by
        unfold fixCore
        rw [if_neg hr, he]
      have : (fixCore name).length = name.length := by rw [hcoreq, fixSub_length]
      omega
  · have hcl : (fixCore name).length ≤ (fixTrim name).length + 1 := by
      unfold fixCore
      split
      · simp
      · simp
    omega
  · left
    have hr : isReserved name = false := fixTrim_unnamed_not_reserved name hne hnil
    have hcoreq : fixCore name = unnamedChars := by
      unfold fixCore
      rw [hr]
      simpa using he
    refine ⟨hcoreq, hr, ?_⟩
    rw [hcoreq] at hbig
    have := unnamed_props.2.1
    omega

/-- Truncation of the reserved-underscore overflow case keeps the leading
underscore, stays within the limit, and leaves no stray space or dot at
either end. -/
lemma truncate_reserved (name : List Char) (L : Nat) (hne : name ≠ [])
    (hr : isReserved name = true) (ht : hasTrailing name = false) (hlen : name.length = L) :
    truncateName (fixCore name) L ≠ [] ∧ (truncateName (fixCore name) L).length ≤ L ∧
    pyStrip (truncateName (fixCore name) L) = truncateName (fixCore name) L ∧
    (truncateName (fixCore name) L).head? = some '_' := by
  have hcore : fixCore name = '_' :: fixSub name := by
    unfold fixCore fixTrim
    rw [if_pos hr, ht]
    simp
  obtain ⟨dev, rest, hdeq, hd3, hdevpr, _, hrest⟩ := reserved_decomp name hr
  have hfs : fixSub name = dev ++ (if hasInvalid name then subForbidden rest else rest) := by
    unfold fixSub
    by_cases hi : hasInvalid name = true
    · rw [if_pos hi, if_pos hi, hdeq]
      unfold subForbidden
      rw [List.map_append]
      congr 1
      exact map_id_of_fixed (fun x hx => subChar_id x (hdevpr x hx).1)
    · rw [if_neg hi, if_neg hi, hdeq]
  have hdevlen : dev.length + rest.length = name.length := by
    rw [hdeq, List.length_append]
  have hL1 : 1 ≤ L := by
    have : 1 ≤ name.length := List.length_pos.mpr hne
    omega
  have hlast : ∀ c, (fixCore name).getLast? = some c → isStripChar c = false := by
    intro c hc
    have h1 := fixCore_strip_fix name hne
    exact pyStrip_last _ c (by rw [h1]; exact hc)
  have hhead : (fixCore name).head? = some '_' := fixCore_head_reserved name hr
  rcases restOk_cases rest hrest with hre | hre | ⟨t, hre⟩
  · have hm : fixCore name = '_' :: dev := by
      rw [hcore, hfs, hre]
      split <;> simp [subForbidden]
    apply truncate_dotless_case (fixCore name) L (by rw [hm]; simp) hL1 ?_ hhead
    intro x hx
    rw [hm] at hx
    rcases List.mem_cons.mp hx with hx | hx
    · subst hx; exact ⟨by decide, by decide⟩
    · exact ⟨(hdevpr x hx).2.1, (hdevpr x hx).2.2⟩
  · have hi : hasInvalid name = true := by
      apply List.any_eq_true.mpr
      refine ⟨'\n', ?_, by decide⟩
      rw [hdeq, hre]
      exact List.mem_append.mpr (Or.inr (by simp))
    have hm : fixCore name = '_' :: (dev ++ ['_']) := by
      rw [hcore, hfs, hre, if_pos hi]
      have hsn : subForbidden ['\n'] = ['_'] := by decide
      rw [hsn]
    apply truncate_dotless_case (fixCore name) L (by rw [hm]; simp) hL1 ?_ hhead
    intro x hx
    rw [hm] at hx
    rcases List.mem_cons.mp hx with hx | hx
    · subst hx; exact ⟨by decide, by decide⟩
    · rcases List.mem_append.mp hx with hx | hx
      · exact ⟨(hdevpr x hx).2.1, (hdevpr x hx).2.2⟩
      · have : x = '_' := by simpa using hx
        subst this
        exact ⟨by decide, by decide⟩
  · have hm : fixCore name =
        ('_' :: dev) ++ ('.' :: (if hasInvalid name then subForbidden t else t)) := by
      rw [hcore, hfs, hre]
      by_cases hi : hasInvalid name = true
      · rw [if_pos hi, if_pos hi]
        unfold subForbidden
        rw [List.map_cons]
        have hsd : subChar '.' = '.' := by decide
        rw [hsd]
        simp
      · rw [if_neg hi, if_neg hi]
        simp
    have htlen : (if hasInvalid name then subForbidden t else t).length = t.length := by
      split
      · exact subForbidden_length t
      · rfl
    apply truncate_ext_case (fixCore name) L ('_' :: dev)
      (if hasInvalid name then subForbidden t else t) hm ?_ hhead hlast ?_ ?_
    · exact List.any_eq_true.mpr ⟨'_', by simp, by decide⟩
    · rw [List.length_cons, htlen]
      rw [hre] at hdevlen
      simp only [List.length_cons] at hdevlen
      omega
    · simp only [List.length_cons]
      omega

/-- The five invariants of the corrected name (lines 61-85), for any
original name that fits within the limit: the result is non-empty, fits
within the limit, has no forbidden character, has no leading or trailing
space or dot, and — when the original name was reserved — starts with an
underscore. -/
lemma fixName_props (name : List Char) (L : Nat) (hne : name ≠ []) (hlen : name.length ≤ L) :
    fixName name L ≠ [] ∧ (fixName name L).length ≤ L ∧
    (∀ x ∈ fixName name L, isForbidden x = false) ∧
    pyStrip (fixName name L) = fixName name L ∧
    (isReserved name = true → (fixName name L).head? = some '_') := by
  unfold fixName
  by_cases hbig : L < (fixCore name).length
  · rw [if_pos hbig]
    have hforb : ∀ x ∈ truncateName (fixCore name) L, isForbidden x = false :=
      fun x hx => fixCore_not_forbidden name x (truncate_mem _ _ x hx)
    have hL1 : 1 ≤ L := by
      have : 1 ≤ name.length := List.length_pos.mpr hne
      omega
    rcases trunc_classify name L hne hlen hbig with ⟨hu, hnr, _⟩ | ⟨hr, ht, hLeq, _⟩
    · rw [hu]
      obtain ⟨a1, a2, a3, _⟩ := truncate_dotless_case unnamedChars L (by decide) hL1
        (fun x hx => ⟨List.all_eq_true.mp unnamed_props.2.2.1 x hx, (unnamed_props.1 x hx).2⟩)
        (c := 'u') rfl
      refine ⟨a1, a2, by rw [← hu]; exact hforb, a3, ?_⟩
      intro hres
      rw [hres] at hnr
      exact absurd hnr (by simp)
    · obtain ⟨a1, a2, a3, a4⟩ := truncate_reserved name L hne hr ht hLeq
      exact ⟨a1, a2, hforb, a3, fun _ => a4⟩
  · rw [if_neg hbig]
    exact ⟨fixCore_ne_nil name hne, by omega, fixCore_not_forbidden name,
      fixCore_strip_fix name hne, fun hr => fixCore_head_reserved name hr⟩

/-- The invariants transferred to the full transform `sanitizeName`. -/
lemma sanitizeName_props (name : List Char) (L : Nat) (hne : name ≠ [])
    (hlen : name.length ≤ L) :
    sanitizeName name L ≠ [] ∧ (sanitizeName name L).length ≤ L ∧
    hasInvalid (sanitizeName name L) = false ∧
    hasTrailing (sanitizeName name L) = false ∧
    (isReserved name = true → isReserved (sanitizeName name L) = false) := by
  have hconv : ∀ s : List Char, (∀ x ∈ s, isForbidden x = false) → hasInvalid s = false := by
    intro s h
    cases hc : hasInvalid s with
    | false => rfl
    | true =>
      rcases List.any_eq_true.mp hc with ⟨x, hx1, hx2⟩
      rw [h x hx1] at hx2
      exact absurd hx2 (by simp)
  have hconv2 : ∀ s : List Char, pyStrip s = s → hasTrailing s = false := by
    intro s h
    unfold hasTrailing
    rw [decide_eq_false_iff_not]
    exact not_not.mpr h
  unfold sanitizeName
  split
  · obtain ⟨a1, a2, a3, a4, a5⟩ := fixName_props name L hne hlen
    refine ⟨a1, a2, hconv _ a3, hconv2 _ a4, ?_⟩
    intro hr
    exact not_reserved_head_underscore _ (a5 hr)
  next hfl =>
    have h3 : hasInvalid name = false ∧ hasTrailing name = false ∧ isReserved name = false := by
      rcases Bool.or_eq_false_iff.mp (bool_false_of_not_true hfl) with ⟨h1, h2⟩
      rcases Bool.or_eq_false_iff.mp h1 with ⟨ha, hb⟩
      exact ⟨ha, hb, h2⟩
    refine ⟨hne, hlen, h3.1, h3.2.1, ?_⟩
    intro hr
    rw [hr] at h3
    exact absurd h3.2.2 (by simp)

/-- When none of the three detections fires, lines 61-99 are skipped and
the name is left untouched. -/
lemma sanitizeName_no_flags (s : List Char) (L : Nat)
    (h : (hasInvalid s || hasTrailing s || isReserved s) = false) : sanitizeName s L = s := by
  unfold sanitizeName
  rw [h]
  simp

/-! ### The collision loop -/

lemma natCharsAux_mem (fuel n : Nat) : ∀ x ∈ natCharsAux fuel n, ∃ k, x = digitChar k := by
  induction fuel generalizing n with
  | zero => simp [natCharsAux]
  | succ f ih =>
    unfold natCharsAux
    split
    · intro x hx
      have : x = digitChar n := by simpa using hx
      exact ⟨n, this⟩
    · intro x hx
      rcases List.mem_append.mp hx with h | h
      · exact ih _ x h
      · have : x = digitChar (n % 10) := by simpa using h
        exact ⟨n % 10, this⟩

lemma digitChar_notDot (k : Nat) : notDot (digitChar k) = true := by
  unfold digitChar
  split <;> decide

lemma natChars_notDot (n : Nat) : ∀ x ∈ natChars n, notDot x = true := by
  intro x hx
  rcases natCharsAux_mem (n + 1) n x hx with ⟨k, hk⟩
  rw [hk]
  exact digitChar_notDot k

lemma natChars_ne_nil (n : Nat) : natChars n ≠ [] := by
  unfold natChars natCharsAux
  split
  · simp
  · simp

lemma mem_le_maxNameLen (fs : List (List Char)) (x : List Char) (h : x ∈ fs) :
    x.length ≤ maxNameLen fs := by
  induction fs with
  | nil => simp at h
  | cons a t ih =>
    unfold maxNameLen at *
    rcases List.mem_cons.mp h with h1 | h1
    · subst h1
      simp only [List.foldr_cons]
      omega
    · have := ih h1
      simp only [List.foldr_cons]
      omega

/-- The collision loop grows the candidate by at least two characters per
iteration, so with fuel past the longest existing name the final
candidate is not an existing name. -/
lemma collideStep_not_mem (fs : List (List Char)) (ext0 : List Char)
    (hshape : ext0 = [] ∨ ∃ t, ext0 = '.' :: t ∧ t.all notDot = true) :
    ∀ fuel m k, ((ext0 ≠ [] ∧ (splitext m).2 = ext0) ∨ (ext0 = [] ∧ splitext m = (m, []))) →
      maxNameLen fs < m.length + 2 * fuel →
      collideStep fs fuel m ext0 k ∉ fs := by
  intro fuel
  induction fuel with
  | zero =>
    intro m k _ hlt hmem
    have := mem_le_maxNameLen fs _ hmem
    simp only [collideStep] at this
    omega
  | succ f ih =>
    intro m k hinv hlt
    unfold collideStep
    split
    next hmem =>
      have hgrow : m.length + 2 ≤ ((splitext m).1 ++ '_' :: natChars k ++ ext0).length := by
        have hlen1 : (splitext m).1.length + (splitext m).2.length = m.length := by
          have := congrArg List.length (splitext_append m)
          rw [List.length_append] at this
          exact this
        have hd1 : 1 ≤ (natChars k).length := by
          cases hc : natChars k with
          | nil => exact absurd hc (natChars_ne_nil k)
          | cons c t => simp
        rcases hinv with ⟨_, hext⟩ | ⟨hnil, hsp⟩
        · rw [List.length_append, List.length_append, List.length_cons]
          rw [hext] at hlen1
          omega
        · have h2 : (splitext m).2.length = 0 := by
            rw [congrArg Prod.snd hsp]
            rfl
          rw [List.length_append, List.length_append, List.length_cons, hnil]
          simp only [List.length_nil]
          omega
      apply ih
      · rcases hinv with ⟨hne, hext⟩ | ⟨hnil, hsp⟩
        · left
          refine ⟨hne, ?_⟩
          rcases hshape with h0 | ⟨t, het, htall⟩
          · exact absurd h0 hne
          · rw [het]
            have hany : ((splitext m).1 ++ '_' :: natChars k).any notDot = true :=
              List.any_eq_true.mpr ⟨'_', List.mem_append.mpr (Or.inr (by simp)), by decide⟩
            have h5 := splitext_concrete ((splitext m).1 ++ '_' :: natChars k) t htall hany
            rw [h5]
        · right
          refine ⟨hnil, ?_⟩
          have hbase : (splitext m).1 = m := by
            have := splitext_append m
            rw [congrArg Prod.snd hsp] at this
            simpa using this
          rw [hnil, List.append_nil, hbase]
          apply splitext_append_dotless m ('_' :: natChars k) hsp
          rw [List.all_cons, Bool.and_eq_true]
          exact ⟨by decide, List.all_eq_true.mpr (natChars_notDot k)⟩
      · have := mem_le_maxNameLen fs m hmem
        omega
    next hmem => exact hmem

/-- The resolved name never collides with an existing entry: the default
fuel is always sufficient. -/
lemma resolveCollision_not_mem (fs : List (List Char)) (cand : List Char) :
    resolveCollision fs cand ∉ fs := by
  unfold resolveCollision
  apply collideStep_not_mem fs (splitext cand).2 (splitext_ext_shape cand)
  · by_cases h : (splitext cand).2 = []
    · right
      refine ⟨h, ?_⟩
      have h2 := splitext_append cand
      rw [h, List.append_nil] at h2
      cases hsp : splitext cand with
      | mk a b =>
        rw [hsp] at h h2
        simp only at h h2
        rw [h, h2]
    · left
      exact ⟨h, rfl⟩
  · omega

/-- The name chosen for the rename differs from every existing entry, in
particular from the entry being renamed. -/
lemma resolveCollision_ne (fs : List (List Char)) (cand name : List Char)
    (h : name ∈ fs) : resolveCollision fs cand ≠ name := by
  intro he
  exact resolveCollision_not_mem fs cand (he ▸ h)

/-! ### Walker lemmas -/

lemma runDir_cons (dryRun : Bool) (oracle : List Char → List Char → Bool) (L : Nat)
    (script : List Char) (st : RunState) (name : List Char) (rest : List (List Char)) :
    runDir dryRun oracle L script st (name :: rest) =
      runDir dryRun oracle L script (processEntry dryRun oracle L script st name) rest := rfl

/-- Line 40: an entry named like the script itself is skipped silently. -/
lemma processEntry_script (dryRun : Bool) (oracle : List Char → List Char → Bool) (L : Nat)
    (script : List Char) (st : RunState) (name : List Char) (h : name = script) :
    processEntry dryRun oracle L script st name = st := by
  simp [processEntry, h]

/-- Lines 46-49: a too-long name only bumps the skipped counter. -/
lemma processEntry_long (dryRun : Bool) (oracle : List Char → List Char → Bool) (L : Nat)
    (script : List Char) (st : RunState) (name : List Char) (h1 : name ≠ script)
    (h2 : L < name.length) :
    processEntry dryRun oracle L script st name = { st with skipped := st.skipped + 1 } := by
  simp [processEntry, h1, h2]

/-- Line 61: an entry with no detected violation is left alone. -/
lemma processEntry_noflags (dryRun : Bool) (oracle : List Char → List Char → Bool) (L : Nat)
    (script : List Char) (st : RunState) (name : List Char) (h1 : name ≠ script)
    (h2 : ¬ L < name.length)
    (h3 : (hasInvalid name || hasTrailing name || isReserved name) = false) :
    processEntry dryRun oracle L script st name = st := by
  simp [processEntry, h1, h2, h3]

/-- Lines 104-125 in a dry run: report and count, touch nothing. -/
lemma processEntry_dry_eq (oracle : List Char → List Char → Bool) (L : Nat)
    (script : List Char) (st : RunState) (name : List Char) (h1 : name ≠ script)
    (h2 : ¬ L < name.length)
    (h3 : (hasInvalid name || hasTrailing name || isReserved name) = true)
    (h4 : resolveCollision st.fs (fixName name L) ≠ name) :
    processEntry true oracle L script st name =
      { st with renamed := st.renamed + 1, log := st.log ++ [(name, reasonsOf name)] } := by
  simp [processEntry, h1, h2, h3, h4]

/-- Lines 104-125 in a live run with a successful rename. -/
lemma processEntry_live_ok (oracle : List Char → List Char → Bool) (L : Nat)
    (script : List Char) (st : RunState) (name : List Char) (h1 : name ≠ script)
    (h2 : ¬ L < name.length)
    (h3 : (hasInvalid name || hasTrailing name || isReserved name) = true)
    (h4 : resolveCollision st.fs (fixName name L) ≠ name)
    (h5 : oracle name (resolveCollision st.fs (fixName name L)) = false) :
    processEntry false oracle L script st name =
      { st with fs := (st.fs.erase name) ++ [resolveCollision st.fs (fixName name L)],
                renamed := st.renamed + 1,
                log := st.log ++ [(name, reasonsOf name)] } := by
  simp [processEntry, h1, h2, h3, h4, h5]

/-- Lines 127-129: a failing `os.rename` is recovered per entry. -/
lemma processEntry_live_err (oracle : List Char → List Char → Bool) (L : Nat)
    (script : List Char) (st : RunState) (name : List Char) (h1 : name ≠ script)
    (h2 : ¬ L < name.length)
    (h3 : (hasInvalid name || hasTrailing name || isReserved name) = true)
    (h4 : resolveCollision st.fs (fixName name L) ≠ name)
    (h5 : oracle name (resolveCollision st.fs (fixName name L)) = true) :
    processEntry false oracle L script st name =
      { st with errors := st.errors + 1,
                log := st.log ++ [(name, reasonsOf name)],
                errLog := st.errLog ++ [name] } := by
  simp [processEntry, h1, h2, h3, h4, h5]

/-- Line 98: when the collision loop lands back on the original name,
nothing is done (this cannot happen when the entry itself still exists). -/
lemma processEntry_self (dryRun : Bool) (oracle : List Char → List Char → Bool) (L : Nat)
    (script : List Char) (st : RunState) (name : List Char) (h1 : name ≠ script)
    (h2 : ¬ L < name.length)
    (h3 : (hasInvalid name || hasTrailing name || isReserved name) = true)
    (h4 : resolveCollision st.fs (fixName name L) = name) :
    processEntry dryRun oracle L script st name = st := by
  simp [processEntry, h1, h2, h3, h4]

/-- A dry run never touches the directory listing. -/
lemma processEntry_dry_fs (oracle : List Char → List Char → Bool) (L : Nat)
    (script : List Char) (st : RunState) (name : List Char) :
    (processEntry true oracle L script st name).fs = st.fs := by
  by_cases h1 : name = script
  · rw [processEntry_script true oracle L script st name h1]
  by_cases h2 : L < name.length
  · rw [processEntry_long true oracle L script st name h1 h2]
  by_cases h3 : (hasInvalid name || hasTrailing name || isReserved name) = true
  · by_cases h4 : resolveCollision st.fs (fixName name L) = name
    · rw [processEntry_self true oracle L script st name h1 h2 h3 h4]
    · rw [processEntry_dry_eq oracle L script st name h1 h2 h3 h4]
  · rw [processEntry_noflags true oracle L script st name h1 h2 (bool_false_of_not_true h3)]

lemma runDir_dry_fs (oracle : List Char → List Char → Bool) (L : Nat)
    (script : List Char) (st : RunState) (entries : List (List Char)) :
    (runDir true oracle L script st entries).fs = st.fs := by
  induction entries generalizing st with
  | nil => rfl
  | cons a t ih =>
    rw [runDir_cons]
    rw [ih]
    exact processEntry_dry_fs oracle L script st a

/-- Relational invariant between a dry run and a fault-free live run over
one directory: as long as every remaining entry still exists in each
run's view of the directory, both runs make identical decisions and
produce identical counters and reports. -/
lemma runDir_rel (L : Nat) (script : List Char) :
    ∀ (entries : List (List Char)) (std stl : RunState),
      entries.Nodup →
      (∀ x ∈ entries, x ∈ std.fs) → (∀ x ∈ entries, x ∈ stl.fs) →
      std.renamed = stl.renamed → std.skipped = stl.skipped →
      std.errors = stl.errors → std.log = stl.log → std.errLog = stl.errLog →
      (runDir true (fun _ _ => false) L script std entries).renamed =
        (runDir false (fun _ _ => false) L script stl entries).renamed ∧
      (runDir true (fun _ _ => false) L script std entries).skipped =
        (runDir false (fun _ _ => false) L script stl entries).skipped ∧
      (runDir true (fun _ _ => false) L script std entries).errors =
        (runDir false (fun _ _ => false) L script stl entries).errors ∧
      (runDir true (fun _ _ => false) L script std entries).log =
        (runDir false (fun _ _ => false) L script stl entries).log ∧
      (runDir true (fun _ _ => false) L script std entries).errLog =
        (runDir false (fun _ _ => false) L script stl entries).errLog := by
  intro entries
  induction entries with
  | nil =>
    intro std stl _ _ _ h1 h2 h3 h4 h5
    exact ⟨h1, h2, h3, h4, h5⟩
  | cons a t ih =>
    intro std stl hnd hmd hml h1 h2 h3 h4 h5
    have ha : a ∉ t := (List.nodup_cons.mp hnd).1
    have ht : t.Nodup := (List.nodup_cons.mp hnd).2
    rw [runDir_cons, runDir_cons]
    by_cases hs : a = script
    · rw [processEntry_script true _ L script std a hs,
        processEntry_script false _ L script stl a hs]
      exact ih std stl ht (fun x hx => hmd x (by simp [hx]))
        (fun x hx => hml x (by simp [hx])) h1 h2 h3 h4 h5
    by_cases hl : L < a.length
    · rw [processEntry_long true _ L script std a hs hl,
        processEntry_long false _ L script stl a hs hl]
      exact ih _ _ ht (fun x hx => hmd x (by simp [hx]))
        (fun x hx => hml x (by simp [hx])) h1 (by simp [h2]) h3 h4 h5
    by_cases hf : (hasInvalid a || hasTrailing a || isReserved a) = true
    · have hmem_d : a ∈ std.fs := hmd a (by simp)
      have hmem_l : a ∈ stl.fs := hml a (by simp)
      have hne_d : resolveCollision std.fs (fixName a L) ≠ a :=
        resolveCollision_ne std.fs (fixName a L) a hmem_d
      have hne_l : resolveCollision stl.fs (fixName a L) ≠ a :=
        resolveCollision_ne stl.fs (fixName a L) a hmem_l
      rw [processEntry_dry_eq _ L script std a hs hl hf hne_d,
        processEntry_live_ok _ L script stl a hs hl hf hne_l rfl]
      apply ih _ _ ht
      · intro x hx
        exact hmd x (by simp [hx])
      · intro x hx
        have hxa : x ≠ a := fun he => ha (he ▸ hx)
        have : x ∈ stl.fs.erase a := (List.mem_erase_of_ne hxa).mpr (hml x (by simp [hx]))
        simp [this]
      · simp [h1]
      · simp [h2]
      · simp [h3]
      · simp [h4]
      · simp [h5]
    · rw [processEntry_noflags true _ L script std a hs hl (bool_false_of_not_true hf),
        processEntry_noflags false _ L script stl a hs hl (bool_false_of_not_true hf)]
      exact ih std stl ht (fun x hx => hmd x (by simp [hx]))
        (fun x hx => hml x (by simp [hx])) h1 h2 h3 h4 h5

/-- A dry run leaves every directory listing exactly as it found it. -/
lemma runTree_dry_fs (oracle : List Char → List Char → Bool) (L : Nat) (script : List Char)
    (dirs : List (List (List Char))) :
    (runTree true oracle L script dirs).2 = dirs := by
  induction dirs with
  | nil => rfl
  | cons entries rest ih =>
    show (runDir true oracle L script ⟨entries, 0, 0, 0, [], []⟩ entries).fs ::
      (runTree true oracle L script rest).2 = entries :: rest
    rw [runDir_dry_fs, ih]

/-- A dry run and a fault-free live run over the same walk produce the
same counters and the same per-entry reports. -/
lemma runTree_rel (L : Nat) (script : List Char) (dirs : List (List (List Char)))
    (hnd : ∀ e ∈ dirs, e.Nodup) :
    (runTree true (fun _ _ => false) L script dirs).1.renamed =
      (runTree false (fun _ _ => false) L script dirs).1.renamed ∧
    (runTree true (fun _ _ => false) L script dirs).1.skipped =
      (runTree false (fun _ _ => false) L script dirs).1.skipped ∧
    (runTree true (fun _ _ => false) L script dirs).1.errors =
      (runTree false (fun _ _ => false) L script dirs).1.errors ∧
    (runTree true (fun _ _ => false) L script dirs).1.log =
      (runTree false (fun _ _ => false) L script dirs).1.log ∧
    (runTree true (fun _ _ => false) L script dirs).1.errLog =
      (runTree false (fun _ _ => false) L script dirs).1.errLog := by
  induction dirs with
  | nil => exact ⟨rfl, rfl, rfl, rfl, rfl⟩
  | cons entries rest ih =>
    have hd := runDir_rel L script entries ⟨entries, 0, 0, 0, [], []⟩ ⟨entries, 0, 0, 0, [], []⟩
      (hnd entries (by simp)) (fun x hx => hx) (fun x hx => hx) rfl rfl rfl rfl rfl
    have hr := ih (fun e he => hnd e (by simp [he]))
    obtain ⟨d1, d2, d3, d4, d5⟩ := hd
    obtain ⟨r1, r2, r3, r4, r5⟩ := hr
    refine ⟨?_, ?_, ?_, ?_, ?_⟩
    · simp only [runTree]; rw [d1, r1]
    · simp only [runTree]; rw [d2, r2]
    · simp only [runTree]; rw [d3, r3]
    · simp only [runTree]; rw [d4, r4]
    · simp only [runTree]; rw [d5, r5]

/-! ### Walk order -/

lemma walkEntries_eq (n : List Char) (subs : List FsTree) (files : List (List Char))
    (path : List (List Char)) :
    walkEntries (.node n subs files) path =
      (subs.map (fun s => walkEntries s (path ++ [n]))).flatten ++
      ((subs.map FsTree.name) ++ files).map (fun e => (path ++ [n], e)) := by
  rw [walkEntries]
  rw [List.attach_map_coe subs (fun s => walkEntries s (path ++ [n]))]

lemma flatten_split (f : FsTree → List (List (List Char) × List Char)) (l : List FsTree)
    (s : FsTree) (h : s ∈ l) :
    ∃ A B, (l.map f).flatten = A ++ f s ++ B := by
  induction l with
  | nil => simp at h
  | cons a t ih =>
    rcases List.mem_cons.mp h with h1 | h1
    · subst h1
      exact ⟨[], (t.map f).flatten, by simp⟩
    · obtain ⟨A, B, hab⟩ := ih h1
      refine ⟨f a ++ A, B, ?_⟩
      simp only [List.map_cons, List.flatten_cons, hab]
      simp [List.append_assoc]

lemma forbidden_not_strip (c : Char) (h : isForbidden c = true) : isStripChar c = false := by
  cases hs : isStripChar c with
  | false => rfl
  | true =>
    rw [strip_not_forbidden c hs] at h
    exact absurd h (by simp)

lemma forbidden_head_not_reserved (c : Char) (r : List Char) (h : isForbidden c = true) :
    isReserved (c :: r) = false := by
  apply head_not_letter_not_reserved
  unfold isForbidden at h
  rcases Bool.or_eq_true_iff.mp h with h1 | h1
  · rw [decide_eq_true_iff] at h1
    have hfix : toUpperAscii c = c := toUpperAscii_fix c (by omega)
    rw [hfix]
    omega
  · rw [decide_eq_true_iff] at h1
    have h2 := toNat_of_mem_forbidden h1
    have hfix : toUpperAscii c = c := toUpperAscii_fix c (by omega)
    rw [hfix]
    omega

lemma map_const_underscore (s : List Char) (f : Char → Char) (h : ∀ x ∈ s, f x = '_') :
    s.map f = List.replicate s.length '_' := by
  induction s with
  | nil => rfl
  | cons a t ih =>
    simp only [List.map_cons, List.length_cons, List.replicate_succ]
    rw [h a (by simp), ih (fun x hx => h x (by simp [hx]))]

/-! ## Claim theorems -/

/-- C1, counterexample to the claim as stated: the input `"CON "` fits
within the limit, but its sanitized result is `"CON"`, which *does* match
the reserved device-name pattern — the reserved check ran on the original
name (line 59), before trimming turned `"CON "` into a reserved name. -/
theorem c1_reserved_after_trim_cx :
    ("CON ".toList).length ≤ 255 ∧
    sanitizeName ("CON ".toList) 255 = "CON".toList ∧
    isReserved (sanitizeName ("CON ".toList) 255) = true := by decide

/-- C1 (amended): for every non-empty input name whose length does not
exceed `maxLength`, the sanitized name is non-empty, has length at most
`maxLength`, contains no forbidden or control character, has no leading
or trailing space or dot, and — provided the *original* name matched the
reserved device-name pattern — the result does not match it.  (A name
that becomes reserved only through trimming, such as `"CON "`, may still
be returned as a reserved name.) -/
theorem c1_sanitized_invariants (name : List Char) (L : Nat)
    (hne : name ≠ []) (hlen : name.length ≤ L) :
    sanitizeName name L ≠ [] ∧ (sanitizeName name L).length ≤ L ∧
    hasInvalid (sanitizeName name L) = false ∧
    hasTrailing (sanitizeName name L) = false ∧
    (isReserved name = true → isReserved (sanitizeName name L) = false) :=
  sanitizeName_props name L hne hlen

/-- Witness for `c1_sanitized_invariants` at the concrete input
`"com3.txt "` with limit 12. -/
theorem c1_sanitized_invariants_witness :
    ("com3.txt ".toList ≠ [] ∧ ("com3.txt ".toList).length ≤ 12) ∧
    (sanitizeName ("com3.txt ".toList) 12 ≠ [] ∧
     (sanitizeName ("com3.txt ".toList) 12).length ≤ 12 ∧
     hasInvalid (sanitizeName ("com3.txt ".toList) 12) = false ∧
     hasTrailing (sanitizeName ("com3.txt ".toList) 12) = false ∧
     (isReserved ("com3.txt ".toList) = true →
       isReserved (sanitizeName ("com3.txt ".toList) 12) = false)) :=
  ⟨⟨by decide, by decide⟩,
    c1_sanitized_invariants ("com3.txt ".toList) 12 (by decide) (by decide)⟩

/-- C2, counterexample to the claim as stated: sanitizing `"CON "` yields
`"CON"`, and re-sanitizing `"CON"` changes it again (to `"_CON"`), so the
transform is not idempotent. -/
theorem c2_idempotence_cx :
    ("CON ".toList).length ≤ 255 ∧
    sanitizeName (sanitizeName ("CON ".toList) 255) 255 ≠ sanitizeName ("CON ".toList) 255 := by
  decide

/-- C2 (amended): the transform is idempotent on every name whose
sanitized result does not itself match the reserved device-name pattern:
none of the three detections fires on the sanitized output, which is
returned unmodified.  (The invalid-character and trailing-space-or-dot
detections can never fire on a sanitized output; only the reserved-name
detection can, when trimming or substitution creates a reserved name.) -/
theorem c2_idempotent_unless_result_reserved (name : List Char) (L : Nat)
    (hne : name ≠ []) (hlen : name.length ≤ L)
    (hnr : isReserved (sanitizeName name L) = false) :
    sanitizeName (sanitizeName name L) L = sanitizeName name L := by
  obtain ⟨_, _, h3, h4, _⟩ := sanitizeName_props name L hne hlen
  apply sanitizeName_no_flags
  rw [h3, h4, hnr]
  rfl

/-- Witness for `c2_idempotent_unless_result_reserved` at `"a:b. "`. -/
theorem c2_idempotent_witness :
    ("a:b. ".toList ≠ [] ∧ ("a:b. ".toList).length ≤ 10 ∧
     isReserved (sanitizeName ("a:b. ".toList) 10) = false) ∧
    sanitizeName (sanitizeName ("a:b. ".toList) 10) 10 = sanitizeName ("a:b. ".toList) 10 :=
  ⟨⟨by decide, by decide, by decide⟩,
    c2_idempotent_unless_result_reserved ("a:b. ".toList) 10 (by decide) (by decide) (by decide)⟩

/-- C3, counterexample to the claim as stated: with `a_b.txt` and
`a_b_1.txt` on disk and sanitized candidate `a_b.txt`, the loop does not
resolve to `a_b_2.txt`. -/
theorem c3_collision_suffix_cx :
    resolveCollision ["a_b.txt".toList, "a_b_1.txt".toList] ("a_b.txt".toList) ≠
      "a_b_2.txt".toList := by decide

/-- C3 (amended): each retry appends `_<N>` to the base of the *current*
(previous iteration's) candidate, not of the original one, so the
suffixes accumulate: with `a_b.txt` and `a_b_1.txt` existing, candidate
`a_b.txt` resolves to `a_b_1_2.txt` (line 93 recomputes the base from
`new_name`, which already carries the `_1` suffix). -/
theorem c3_collision_suffix_accumulates :
    resolveCollision ["a_b.txt".toList, "a_b_1.txt".toList] ("a_b.txt".toList) =
      "a_b_1_2.txt".toList := by decide

/-- C4: an entry (other than the script's own file, which line 40 skips
before anything is counted) whose name is strictly longer than
`maxLength` is hard-skipped: only the skipped counter changes — the
listing, the renamed and error counters and both reports stay untouched —
and the walk continues with the remaining entries. -/
theorem c4_too_long_hard_skip (dryRun : Bool) (oracle : List Char → List Char → Bool)
    (L : Nat) (script : List Char) (st : RunState) (name : List Char)
    (rest : List (List Char)) (hs : name ≠ script) (hl : L < name.length) :
    processEntry dryRun oracle L script st name = { st with skipped := st.skipped + 1 } ∧
    runDir dryRun oracle L script st (name :: rest) =
      runDir dryRun oracle L script { st with skipped := st.skipped + 1 } rest := by
  have h := processEntry_long dryRun oracle L script st name hs hl
  exact ⟨h, by rw [runDir_cons, h]⟩

/-- Witness for `c4_too_long_hard_skip`: a three-character name with
limit 2 in a live run. -/
theorem c4_too_long_hard_skip_witness :
    ("abc".toList ≠ "s.py".toList ∧ 2 < ("abc".toList).length) ∧
    processEntry false (fun _ _ => false) 2 ("s.py".toList)
        ⟨["abc".toList], 3, 4, 5, [], []⟩ ("abc".toList) =
      ⟨["abc".toList], 3, 5, 5, [], []⟩ :=
  ⟨⟨by decide, by decide⟩,
    (c4_too_long_hard_skip false (fun _ _ => false) 2 ("s.py".toList)
      ⟨["abc".toList], 3, 4, 5, [], []⟩ ("abc".toList) [] (by decide) (by decide)).1⟩

/-- C5: the substitution step is the character-wise map replacing each
forbidden character by exactly one underscore: it preserves the length,
replaces position `i` iff the original character there is forbidden, and
leaves every other character in place; in particular `a:b*c?.txt`
sanitizes to `a_b_c_.txt`. -/
theorem c5_char_substitution :
    (∀ name : List Char, (subForbidden name).length = name.length ∧
      (∀ i : Nat, (subForbidden name).getD i 'a' =
        (if isForbidden (name.getD i 'a') = true then '_' else name.getD i 'a'))) ∧
    sanitizeName ("a:b*c?.txt".toList) 255 = "a_b_c_.txt".toList := by
  constructor
  · intro name
    refine ⟨subForbidden_length name, ?_⟩
    intro i
    induction name generalizing i with
    | nil =>
      simp only [subForbidden, List.map_nil, List.getD_nil]
      decide
    | cons c t ih =>
      cases i with
      | zero =>
        simp only [subForbidden, List.map_cons, List.getD_cons_zero]
        rfl
      | succ j =>
        simpa only [subForbidden, List.map_cons, List.getD_cons_succ] using ih j
  · decide

/-- C6: over any walk (the per-directory listings, each without duplicate
entries), a dry run leaves every directory listing byte-for-byte as it
found it, and produces exactly the same renamed/skipped/error counters,
the same per-entry reasons, and the same error reports as the
corresponding fault-free live run on the same initial tree. -/
theorem c6_dry_run_frame_and_counts (dirs : List (List (List Char))) (L : Nat)
    (script : List Char) (hnd : ∀ e ∈ dirs, e.Nodup) :
    (runTree true (fun _ _ => false) L script dirs).2 = dirs ∧
    (runTree true (fun _ _ => false) L script dirs).1.renamed =
      (runTree false (fun _ _ => false) L script dirs).1.renamed ∧
    (runTree true (fun _ _ => false) L script dirs).1.skipped =
      (runTree false (fun _ _ => false) L script dirs).1.skipped ∧
    (runTree true (fun _ _ => false) L script dirs).1.errors =
      (runTree false (fun _ _ => false) L script dirs).1.errors ∧
    (runTree true (fun _ _ => false) L script dirs).1.log =
      (runTree false (fun _ _ => false) L script dirs).1.log ∧
    (runTree true (fun _ _ => false) L script dirs).1.errLog =
      (runTree false (fun _ _ => false) L script dirs).1.errLog := by
  obtain ⟨r1, r2, r3, r4, r5⟩ := runTree_rel L script dirs hnd
  exact ⟨runTree_dry_fs (fun _ _ => false) L script dirs, r1, r2, r3, r4, r5⟩

/-- Witness for `c6_dry_run_frame_and_counts`: a two-directory walk with a
forbidden-character file, a clean file, and an overlong file. -/
theorem c6_dry_run_witness :
    (∀ e ∈ [["a:b.txt".toList, "ok.txt".toList], ["waytoolongname.txt".toList]],
      List.Nodup e) ∧
    ((runTree true (fun _ _ => false) 10 ("s.py".toList)
        [["a:b.txt".toList, "ok.txt".toList], ["waytoolongname.txt".toList]]).2 =
      [["a:b.txt".toList, "ok.txt".toList], ["waytoolongname.txt".toList]] ∧
     (runTree true (fun _ _ => false) 10 ("s.py".toList)
        [["a:b.txt".toList, "ok.txt".toList], ["waytoolongname.txt".toList]]).1.renamed =
       (runTree false (fun _ _ => false) 10 ("s.py".toList)
        [["a:b.txt".toList, "ok.txt".toList], ["waytoolongname.txt".toList]]).1.renamed ∧
     (runTree true (fun _ _ => false) 10 ("s.py".toList)
        [["a:b.txt".toList, "ok.txt".toList], ["waytoolongname.txt".toList]]).1.skipped =
       (runTree false (fun _ _ => false) 10 ("s.py".toList)
        [["a:b.txt".toList, "ok.txt".toList], ["waytoolongname.txt".toList]]).1.skipped ∧
     (runTree true (fun _ _ => false) 10 ("s.py".toList)
        [["a:b.txt".toList, "ok.txt".toList], ["waytoolongname.txt".toList]]).1.errors =
       (runTree false (fun _ _ => false) 10 ("s.py".toList)
        [["a:b.txt".toList, "ok.txt".toList], ["waytoolongname.txt".toList]]).1.errors ∧
     (runTree true (fun _ _ => false) 10 ("s.py".toList)
        [["a:b.txt".toList, "ok.txt".toList], ["waytoolongname.txt".toList]]).1.log =
       (runTree false (fun _ _ => false) 10 ("s.py".toList)
        [["a:b.txt".toList, "ok.txt".toList], ["waytoolongname.txt".toList]]).1.log ∧
     (runTree true (fun _ _ => false) 10 ("s.py".toList)
        [["a:b.txt".toList, "ok.txt".toList], ["waytoolongname.txt".toList]]).1.errLog =
       (runTree false (fun _ _ => false) 10 ("s.py".toList)
        [["a:b.txt".toList, "ok.txt".toList], ["waytoolongname.txt".toList]]).1.errLog) :=
  ⟨by decide,
    c6_dry_run_frame_and_counts
      [["a:b.txt".toList, "ok.txt".toList], ["waytoolongname.txt".toList]] 10
      ("s.py".toList) (by decide)⟩

/-- C7: when the rename of an entry fails at the OS level in a live run,
the failure is recovered per entry: the error counter is incremented, the
renamed counter and the listing are untouched, the change record and the
error report carry the entry's name, and the walk continues with the
remaining entries. -/
theorem c7_rename_failure_recovery (oracle : List Char → List Char → Bool) (L : Nat)
    (script : List Char) (st : RunState) (name : List Char) (rest : List (List Char))
    (hs : name ≠ script) (hl : ¬ L < name.length)
    (hf : (hasInvalid name || hasTrailing name || isReserved name) = true)
    (hmem : name ∈ st.fs)
    (herr : oracle name (resolveCollision st.fs (fixName name L)) = true) :
    processEntry false oracle L script st name =
      { st with errors := st.errors + 1,
                log := st.log ++ [(name, reasonsOf name)],
                errLog := st.errLog ++ [name] } ∧
    runDir false oracle L script st (name :: rest) =
      runDir false oracle L script
        { st with errors := st.errors + 1,
                  log := st.log ++ [(name, reasonsOf name)],
                  errLog := st.errLog ++ [name] } rest := by
  have h4 := resolveCollision_ne st.fs (fixName name L) name hmem
  have h := processEntry_live_err oracle L script st name hs hl hf h4 herr
  exact ⟨h, by rw [runDir_cons, h]⟩

/-- Witness for `c7_rename_failure_recovery`: an always-failing rename on
the entry `a:b`. -/
theorem c7_rename_failure_witness :
    ("a:b".toList ≠ "s.py".toList ∧ ¬ 10 < ("a:b".toList).length ∧
     (hasInvalid ("a:b".toList) || hasTrailing ("a:b".toList) ||
       isReserved ("a:b".toList)) = true ∧
     "a:b".toList ∈ ["a:b".toList] ∧
     (fun (_ _ : List Char) => true) ("a:b".toList)
       (resolveCollision ["a:b".toList] (fixName ("a:b".toList) 10)) = true) ∧
    processEntry false (fun _ _ => true) 10 ("s.py".toList)
        ⟨["a:b".toList], 0, 0, 0, [], []⟩ ("a:b".toList) =
      ⟨["a:b".toList], 0, 0, 1, [("a:b".toList, [Reason.invalidChars])], ["a:b".toList]⟩ :=
  ⟨⟨by decide, by decide, by decide, by decide, rfl⟩,
    (c7_rename_failure_recovery (fun _ _ => true) 10 ("s.py".toList)
      ⟨["a:b".toList], 0, 0, 0, [], []⟩ ("a:b".toList) [] (by decide) (by decide)
      (by decide) (by decide) rfl).1⟩

/-- C8: the walk is bottom-up.  Whenever the walk of `t` (begun at path
`p`) visits a directory node `d` at path `q`, then for every subdirectory
`s` of `d`, the complete walk sequence of `t` contains the whole entry
sequence of `s`'s subtree strictly before the walk entry `(q ++ [d.name],
s.name)` that considers `s` itself for renaming — and the paths of those
subtree entries are built from `s`'s original (pre-rename) name. -/
theorem c8_bottom_up_walk (t : FsTree) (p : List (List Char)) (d : FsTree)
    (q : List (List Char)) (hat : NodeAt t p d q) :
    ∀ s ∈ d.subs, ∃ pre post,
      walkEntries t p = pre ++ walkEntries s (q ++ [d.name]) ++ post ∧
      (q ++ [d.name], s.name) ∈ post := by
  induction hat with
  | refl t0 p0 =>
    intro s hs
    cases t0 with
    | node n subs files =>
      simp only [FsTree.subs] at hs
      simp only [FsTree.name]
      obtain ⟨A, B, hab⟩ := flatten_split (fun s => walkEntries s (p0 ++ [n])) subs s hs
      refine ⟨A, B ++ ((subs.map FsTree.name) ++ files).map (fun e => (p0 ++ [n], e)), ?_, ?_⟩
      · rw [walkEntries_eq, hab]
        simp [List.append_assoc]
      · apply List.mem_append.mpr
        right
        apply List.mem_map.mpr
        exact ⟨s.name, List.mem_append.mpr (Or.inl (List.mem_map_of_mem FsTree.name hs)), rfl⟩
  | step t0 p0 s0 d0 q0 hmem hnode ih =>
    intro s hs
    obtain ⟨pre, post, heq, hpost⟩ := ih s hs
    cases t0 with
    | node n subs files =>
      simp only [FsTree.subs] at hmem
      have heq2 : walkEntries s0 (p0 ++ [n]) =
          pre ++ walkEntries s (q0 ++ [d0.name]) ++ post := heq
      obtain ⟨A, B, hab⟩ := flatten_split (fun s => walkEntries s (p0 ++ [n])) subs s0 hmem
      refine ⟨A ++ pre,
        post ++ B ++ ((subs.map FsTree.name) ++ files).map (fun e => (p0 ++ [n], e)), ?_, ?_⟩
      · rw [walkEntries_eq, hab, heq2]
        simp [List.append_assoc]
      · exact List.mem_append.mpr (Or.inl (List.mem_append.mpr (Or.inl hpost)))

/-- Witness for `c8_bottom_up_walk`: a root containing a to-be-renamed
directory `bad:dir` which contains the file `bad:file.txt`; the file's
walk entry (under the directory's original path) precedes the directory's
own entry. -/
theorem c8_bottom_up_walk_witness :
    ∃ pre post,
      walkEntries (FsTree.node ("root".toList)
          [FsTree.node ("bad:dir".toList) [] ["bad:file.txt".toList]] []) [] =
        pre ++ walkEntries (FsTree.node ("bad:dir".toList) [] ["bad:file.txt".toList])
          ["root".toList] ++ post ∧
      (["root".toList], "bad:dir".toList) ∈ post :=
  c8_bottom_up_walk
    (FsTree.node ("root".toList) [FsTree.node ("bad:dir".toList) [] ["bad:file.txt".toList]] [])
    [] _ [] (NodeAt.refl _ [])
    (FsTree.node ("bad:dir".toList) [] ["bad:file.txt".toList])
    (List.mem_cons_self _ _)

/-- C9: collision resolution does not re-enforce the length limit.  With
`maxLength = 5`, the name `CON.a` is corrected and truncated to the
5-character candidate `_CO.a`; since `_CO.a` already exists, the loop
appends `_1` *after* the truncation and the rename actually performed
uses `_CO_1.a`, of length 7 > 5. -/
theorem c9_collision_exceeds_max_length :
    (fixName ("CON.a".toList) 5).length = 5 ∧
    resolveCollision ["CON.a".toList, "_CO.a".toList] (fixName ("CON.a".toList) 5) =
      "_CO_1.a".toList ∧
    5 < (resolveCollision ["CON.a".toList, "_CO.a".toList]
          (fixName ("CON.a".toList) 5)).length ∧
    (processEntry false (fun _ _ => false) 5 ("s".toList)
        ⟨["CON.a".toList, "_CO.a".toList], 0, 0, 0, [], []⟩ ("CON.a".toList)).fs =
      ["_CO.a".toList, "_CO_1.a".toList] := by decide

/-- C10: a name made up solely of forbidden characters is rewritten to a
string of underscores of the same length, never to the `unnamed`
placeholder — the placeholder arises only from the trimming step's
empty-result fallback (line 73-74), which such names never reach since
forbidden characters are neither spaces nor dots. -/
theorem c10_all_forbidden_underscores (name : List Char) (L : Nat) (hne : name ≠ [])
    (hlen : name.length ≤ L) (hall : ∀ x ∈ name, isForbidden x = true) :
    sanitizeName name L = List.replicate name.length '_' ∧
    sanitizeName name L ≠ unnamedChars := by
  obtain ⟨c, r, rfl⟩ : ∃ c r, name = c :: r := by
    cases name with
    | nil => exact absurd rfl hne
    | cons c r => exact ⟨c, r, rfl⟩
  have hi : hasInvalid (c :: r) = true :=
    List.any_eq_true.mpr ⟨c, by simp, hall c (by simp)⟩
  have ht : hasTrailing (c :: r) = false := by
    unfold hasTrailing
    rw [decide_eq_false_iff_not]
    exact not_not.mpr (strip_of_all_nonstrip _ (fun x hx => forbidden_not_strip x (hall x hx)))
  have hr : isReserved (c :: r) = false := forbidden_head_not_reserved c r (hall c (by simp))
  have hfs : fixSub (c :: r) = List.replicate (c :: r).length '_' := by
    unfold fixSub
    rw [hi]
    simp only [if_true]
    apply map_const_underscore
    intro x hx
    unfold subChar
    rw [hall x hx]
    rfl
  have htrim : fixTrim (c :: r) = fixSub (c :: r) := by
    unfold fixTrim
    rw [ht]
    simp
  have hcore : fixCore (c :: r) = fixSub (c :: r) := by
    unfold fixCore
    rw [hr]
    simpa using htrim
  have hclen : (fixCore (c :: r)).length = (c :: r).length := by
    rw [hcore, hfs, List.length_replicate]
  have hfix : fixName (c :: r) L = List.replicate (c :: r).length '_' := by
    unfold fixName
    rw [if_neg (by omega), hcore, hfs]
  have hsan : sanitizeName (c :: r) L = List.replicate (c :: r).length '_' := by
    unfold sanitizeName
    rw [hi]
    simpa using hfix
  refine ⟨hsan, ?_⟩
  rw [hsan]
  intro hcon
  have : '_' = 'u' := by
    have h0 := congrArg List.head? hcon
    simp only [List.length_cons, List.replicate_succ, List.head?_cons, unnamedChars] at h0
    exact Option.some.inj h0
  exact absurd this (by decide)

/-- Witness for `c10_all_forbidden_underscores` at the input `"???"`. -/
theorem c10_all_forbidden_witness :
    ("???".toList ≠ [] ∧ ("???".toList).length ≤ 3 ∧
      (∀ x ∈ "???".toList, isForbidden x = true)) ∧
    (sanitizeName ("???".toList) 3 = List.replicate ("???".toList).length '_' ∧
     sanitizeName ("???".toList) 3 ≠ unnamedChars) :=
  ⟨⟨by decide, by decide, by decide⟩,
    c10_all_forbidden_underscores ("???".toList) 3 (by decide) (by decide) (by decide)⟩
